import Mathlib

/-!
Verification of the mentonlang interpreter core (src/core/mentonlang.py).

The program works on Python `str` values, which are sequences of Unicode
code points.  We model them as `List Char` ("Str" below) and give the
string primitives the code uses (strip, startswith, slicing, whitespace
split, comment truncation) as structural recursions, so that every
definition evaluates inside the kernel.

Machine integers do not occur: Python integers are arbitrary precision,
modelled as `Int` (and `Nat` where the code only produces non-negative
values).  Fallible code (functions raising SyntaxError / returning None)
is modelled with `Option` / `Except`.
-/

namespace Menton

abbrev Str := List Char

/-- Python `str.strip()`: drop leading and trailing whitespace. -/
def pyStrip (l : Str) : Str :=
  ((l.dropWhile Char.isWhitespace).reverse.dropWhile Char.isWhitespace).reverse

/-- `clean_line` (mentonlang.py:65): truncate at the first `#`, then strip. -/
def clean_line (raw : Str) : Str := pyStrip (raw.takeWhile (· ≠ '#'))

/-- Python `str.split()` (no argument): split on runs of whitespace,
dropping empty pieces.  Second argument accumulates the current word in
reverse. -/
def pySplitAux : Str → Str → List Str
  | [], cur => if cur = [] then [] else [cur.reverse]
  | c :: cs, cur =>
    if c.isWhitespace then
      (if cur = [] then pySplitAux cs [] else cur.reverse :: pySplitAux cs [])
    else pySplitAux cs (c :: cur)

def pySplit (l : Str) : List Str := pySplitAux l []

/-! ## Tokens (mentonlang.py:11-59) -/

def NAMED_REGS : List Str :=
  ["멘똔".toList, "배털".toList, "정빵".toList, "애플리프트".toList, "깨무이".toList,
   "혁두".toList, "턱살개구리".toList, "잉진이".toList, "민짜이".toList]

def REG_BASE : List Str :=
  ["멘".toList, "빵".toList, "깨".toList, "털".toList, "두".toList, "덜".toList, "애".toList]

def REGTOK_GLUE : Str := "가".toList

def TOK_SET : Str := "하요하요".toList
def TOK_RESET : Str := "바요바요".toList
def TOK_ADD : Str := "누이 좋고".toList
def TOK_SUB : Str := "매부 좋고".toList
def TOK_MUL : Str := "아주 좋고".toList
def TOK_IF : Str := "건방진".toList
def TOK_WHILE : Str := "좋다좋다".toList
def TOK_END : Str := "쉐끼마".toList
def TOK_ELSE : Str := "정신이 나갔어 정신이".toList
def CMP_GT : Str := "응나멘똔".toList
def CMP_LT : Str := "응너도혁".toList
def TOK_PRINT_START : Str := "와타시는".toList
def TOK_PRINT_NUM_END : Str := "이라는 것이야".toList
def TOK_PRINT_CHAR_END : Str := "한다는 것이야".toList
def TOK_OUT_SPACE : Str := "~".toList
def TOK_OUT_NEWLINE : Str := "ㅢ?!".toList

/-- `NEG_LAUGH` (mentonlang.py:53): negative marker of laugh numbers. -/
def NEG_LAUGH : Str := "뭐꼬".toList

/-- The four place tokens are single code points in the source (Python
holds them as length-1 strings and compares single characters against
them), so we model them as `Char`. -/
def T_I : Char := '훠'
def T_X : Char := '훳'
def T_C : Char := '허'
def T_M : Char := '헛'

/-- `T_FIVE_PREFIX` (mentonlang.py:58), the two-code-point five-bump
marker `훠러`. -/
def T_FIVE : Str := "훠러".toList

/-- `T_GROUP_ZERO` (mentonlang.py:59), a single code point. -/
def T_GROUP_ZERO : Char := '찢'

/-! ## Register table (mentonlang.py:77-115) -/

/-- `build_register_set` builds a dict token → index by inserting the 9
named registers first (they are pairwise distinct, so the dedup branch
never fires) and then the 49 patterned registers `a ++ 가 ++ b ++ 가` in
row-major order.  A token's index is its insertion position, i.e. its
position in this list. -/
def REG_TOKENS : List Str :=
  NAMED_REGS ++
    (REG_BASE.flatMap fun a => REG_BASE.map fun b => a ++ REGTOK_GLUE ++ b ++ REGTOK_GLUE)

/-- Dict lookup `REG_TO_IDX.get(tok)`. -/
def regLookup (tok : Str) : Option Nat := REG_TOKENS.findIdx? (· = tok)

/-- `is_register_token` (mentonlang.py:114). -/
def is_register_token (line : Str) : Bool := (regLookup (pyStrip line)).isSome

/-! ## Number parsing (mentonlang.py:121-280) -/

/-- Value of a non-empty all-ASCII-digit string. -/
def decVal (ds : Str) : Nat := ds.foldl (fun a c => 10 * a + (c.toNat - 48)) 0

/-- `parse_arabic_int` (mentonlang.py:121): strip, then Python `int()`.
We model `int()` on its ASCII form: an optional single sign followed by
one or more ASCII decimal digits (the exotic `int()` extras — underscore
separators and non-ASCII digits — are not modelled; no claim depends on
them). -/
def parse_arabic_int (s : Str) : Option Int :=
  match pyStrip s with
  | [] => none
  | c :: ds =>
    if c = '-' then
      if ds ≠ [] ∧ ds.all Char.isDigit then some (-(decVal ds : Int)) else none
    else if c = '+' then
      if ds ≠ [] ∧ ds.all Char.isDigit then some (decVal ds : Int) else none
    else if (c :: ds).all Char.isDigit then some (decVal (c :: ds) : Int) else none

/-- A tokenized laugh-number item: either the zero-group token `찢`
(`("ZZ", 0)` in the source) or a place token with its decoded digit. -/
inductive LItem where
  | zz : LItem
  | pl (p : Char) (d : Nat) : LItem
deriving DecidableEq, Repr

def placeTokens : List Char := [T_I, T_X, T_C, T_M]

/-- Tokenization loop of `parse_laugh_number` (mentonlang.py:169-203),
with explicit fuel (each iteration consumes at least one character, so
`length + 1` fuel is always enough; `laughTokenize` below supplies it). -/
def laughTokenizeF : Nat → Str → Option (List LItem)
  | 0, _ => none
  | _ + 1, [] => some []
  | f + 1, c :: cs =>
    if c = T_GROUP_ZERO then
      (laughTokenizeF f cs).map (LItem.zz :: ·)
    else
      -- `raw.startswith(T_FIVE_PREFIX, i)`
      let hasFive := T_FIVE.isPrefixOf (c :: cs)
      let rest1 := if hasFive then (c :: cs).drop 2 else c :: cs
      match rest1 with
      | [] => none                    -- five-bump marker at end of input
      | p :: ps =>
        if p ∈ placeTokens then
          let cnt := ((p :: ps).takeWhile (· = p)).length
          let rest2 := (p :: ps).dropWhile (· = p)
          if hasFive then
            if 1 ≤ cnt ∧ cnt ≤ 4 then (laughTokenizeF f rest2).map (LItem.pl p (5 + cnt) :: ·)
            else none
          else
            if 1 ≤ cnt ∧ cnt ≤ 5 then (laughTokenizeF f rest2).map (LItem.pl p cnt :: ·)
            else none
        else none

def laughTokenize (cs : Str) : Option (List LItem) := laughTokenizeF (cs.length + 1) cs

/-- `token_for_power` (mentonlang.py:209): place token of decimal power
`k`; tokens cycle with period 4.  `%` is Python-style (non-negative for
positive modulus), which is `Int.emod`. -/
def token_for_power (k : Int) : Char :=
  let r := k % 4
  if r = 0 then T_I else if r = 1 then T_X else if r = 2 then T_C else T_M

/-- `target_mod` map (mentonlang.py:230). -/
def targetMod (p : Char) : Nat :=
  if p = T_I then 0 else if p = T_X then 1 else if p = T_C then 2 else 3

/-- First non-`찢` item (mentonlang.py:220-224). -/
def firstPlace : List LItem → Option Char
  | [] => none
  | LItem.zz :: rest => firstPlace rest
  | LItem.pl p _ :: _ => some p

/-- Inner `while` of `try_parse` (mentonlang.py:248-253): decrement `k`
until the expected place token matches `p`, bumping the group counter and
failing once it reaches 4.  The counter strictly increases, so fuel 4 is
always sufficient at the call sites (which keep `s ≤ 3`). -/
def skipToF : Nat → Int → Nat → Char → Option (Int × Nat)
  | 0, _, _, _ => none
  | f + 1, k, s, p =>
    if 0 ≤ k ∧ token_for_power k ≠ p then
      if s + 1 ≥ 4 then none else skipToF f (k - 1) (s + 1) p
    else some (k, s)

def skipTo (k : Int) (s : Nat) (p : Char) : Option (Int × Nat) := skipToF 4 k s p

/-- Body of `try_parse` (mentonlang.py:233-264): walk the items,
consuming decimal powers downward from `k`; `s` is `skipped_in_group`,
`value` the accumulator. -/
def try_parse_go : List LItem → Int → Nat → Nat → Option Nat
  | [], _, _, value => some value
  | LItem.zz :: rest, k, _, value =>
    -- a `찢` skips exactly 4 powers and resets the group counter
    if k - 4 < 0 then none else try_parse_go rest (k - 4) 0 value
  | LItem.pl p d :: rest, k, s, value =>
    match skipTo k s p with
    | none => none
    | some (k', s') =>
      if k' < 0 ∨ token_for_power k' ≠ p then none
      else
        let s'' := if s' + 1 ≥ 4 then 0 else s' + 1
        try_parse_go rest (k' - 1) s'' (value + d * 10 ^ k'.toNat)

def try_parse (items : List LItem) (k0 : Int) : Option Nat := try_parse_go items k0 0 0

/-- The `for m in range(0, max_steps)` search (mentonlang.py:267-271):
try anchors `tmod + 4*m` in increasing order, returning the first hit.
The first argument is the number of remaining candidates. -/
def laughSearch (items : List LItem) (tmod : Nat) : Nat → Nat → Option Nat
  | 0, _ => none
  | n + 1, m =>
    match try_parse items ((tmod : Int) + 4 * m) with
    | some v => some v
    | none => laughSearch items tmod n (m + 1)

/-- The strip/negative-marker preamble of `parse_laugh_number`
(mentonlang.py:153-161): strip; fail if empty; peel the `뭐꼬` marker and
strip again; fail if nothing remains. -/
def laughPrep (s : Str) : Option (Bool × Str) :=
  let raw := pyStrip s
  if raw = [] then none
  else
    let neg := NEG_LAUGH.isPrefixOf raw
    let raw2 := if neg then pyStrip (raw.drop NEG_LAUGH.length) else raw
    if raw2 = [] then none else some (neg, raw2)

/-- `parse_laugh_number` (mentonlang.py:131-273). -/
def parse_laugh_number (s : Str) : Option Int :=
  match laughPrep s with
  | none => none
  | some (neg, raw2) =>
    match laughTokenize raw2 with
    | none => none
    | some items =>
      if items = [] then none
      else
        match firstPlace items with
        | none => none           -- a stream of only `찢` is ambiguous
        | some fp =>
          match laughSearch items (targetMod fp) (items.length * 5 + 20) 0 with
          | none => none
          | some v => some (if neg then -(v : Int) else (v : Int))

/-- `parse_number_or_none` (mentonlang.py:276): plain decimal first,
laugh grammar only if that fails. -/
def parse_number_or_none (s : Str) : Option Int :=
  match parse_arabic_int s with
  | some v => some v
  | none => parse_laugh_number s

/-! ### Specification-side reading of the laugh-number power search

The declarative counterpart of `try_parse`: how many powers are
implicitly skipped before an explicit place is computed arithmetically
(`(k - targetMod p) % 4`) instead of by the source's decrement loop, and
the anchor search is an unbounded least-element condition instead of the
source's `for m in range(...)`. -/

/-- Declarative account of consuming one explicit place item at power
`k` with group counter `s`: `g` powers are implicitly skipped down to
the next power carrying this item's token; that power `k - g` must
exist (be ≥ 0); the skip may not complete a group of four counted
powers with no explicit digit (`s + g ≥ 4` with at least one skip
fails); the counter then counts the consumed power and resets at
four. -/
def specPlaceStep (k : Int) (s : Nat) (p : Char) : Option (Int × Nat) :=
  let g := ((k - (targetMod p : Int)) % 4).toNat
  let k' := k - g
  if k' < 0 then none
  else if 1 ≤ g ∧ s + g ≥ 4 then none
  else some (k', if s + g + 1 ≥ 4 then 0 else s + g + 1)

/-- The loop body's explicit-place step of `try_parse` (skip loop, match
check, counter update) as one function, for analysis. -/
def placeStep (k : Int) (s : Nat) (p : Char) : Option (Int × Nat) :=
  match skipTo k s p with
  | none => none
  | some (k', s') =>
    if k' < 0 ∨ token_for_power k' ≠ p then none
    else some (k', if s' + 1 ≥ 4 then 0 else s' + 1)

/-- Specification-side run over the item stream from starting power
`k`: a zero-group token skips exactly 4 powers and resets the group
counter; an explicit place consumes per `specPlaceStep`; the value is
the sum of digit · 10^power. -/
def laughSpecRun : List LItem → Int → Nat → Option Nat
  | [], _, _ => some 0
  | LItem.zz :: rest, k, _ =>
    if k - 4 < 0 then none else laughSpecRun rest (k - 4) 0
  | LItem.pl p d :: rest, k, s =>
    match specPlaceStep k s p with
    | none => none
    | some (k', s') => (laughSpecRun rest (k' - 1) s').map (fun w => d * 10 ^ k'.toNat + w)

/-- The frozen claim's own consistency criterion for a power
assignment starting at `k`: each place token occupies the next power of
its kind (strict decrease), at most 3 powers are implicitly skipped
between explicit places, and every zero-group token skips exactly 4
powers aligned to a full decimal group boundary (`k % 4 = 3`).  Note:
unlike the code, there is no running group counter. -/
def claimLaughConsistent : List LItem → Int → Bool
  | [], _ => true
  | LItem.zz :: rest, k =>
    decide (k % 4 = 3) && decide (3 ≤ k) && claimLaughConsistent rest (k - 4)
  | LItem.pl p _ :: rest, k =>
    let g := ((k - (targetMod p : Int)) % 4).toNat
    decide (0 ≤ k - (g : Int)) && decide (g ≤ 3) && claimLaughConsistent rest (k - g - 1)

/-- Specification-side statement of the laugh-number decoder: after the
sign/strip preamble and tokenization, the stream must contain an
explicit place anchoring the power residue, and the result is the value
at the smallest starting power `targetMod fp + 4m` whose run is
consistent, negated under the `뭐꼬` marker. -/
def LaughSpecDecodes (s : Str) (v : Int) : Prop :=
  ∃ neg raw2 items fp m w,
    laughPrep s = some (neg, raw2) ∧
    laughTokenize raw2 = some items ∧
    firstPlace items = some fp ∧
    IsLeast {n : Nat |
      (laughSpecRun items ((targetMod fp : Int) + 4 * n) 0).isSome = true} m ∧
    laughSpecRun items ((targetMod fp : Int) + 4 * m) 0 = some w ∧
    v = if neg then -(w : Int) else (w : Int)

/-! ## Errors

The source raises `SyntaxError` (user-program faults) and
`RuntimeError` (internal indexer/engine desynchronization).  The message
strings are irrelevant to the claims and are dropped. -/

inductive MErr where
  | syntaxErr : MErr
  | internalErr : MErr
deriving DecidableEq, Repr

/-! ## Block indexing (mentonlang.py:286-343) -/

structure IfMeta where
  else_ip : Option Nat
  end_ip : Nat
deriving DecidableEq, Repr

structure WhileMeta where
  start_ip : Nat
  end_ip : Nat
deriving DecidableEq, Repr

structure ProgramIndex where
  if_map : List (Nat × IfMeta)
  while_map : List (Nat × WhileMeta)
deriving DecidableEq, Repr

/-- Stack entry kind; the source uses the strings "if" / "while" (the
`Unknown block kind` branch for any other string is unreachable). -/
inductive BKind where
  | kif : BKind
  | kwhile : BKind
deriving DecidableEq, Repr

/-- Fold state of `index_blocks`: the open-block stack (head = top, i.e.
the innermost open block) and the two maps, as insertion-ordered
association lists like Python dicts. -/
structure IndexState where
  stack : List (BKind × Nat × Option Nat)
  if_map : List (Nat × IfMeta)
  while_map : List (Nat × WhileMeta)
deriving DecidableEq, Repr

/-- One iteration of the `for ip, raw in enumerate(lines)` body
(mentonlang.py:314-337), on the cleaned line. -/
def indexLine (st : IndexState) (ip : Nat) (line : Str) : Except MErr IndexState :=
  if line = [] then .ok st
  else if TOK_IF.isPrefixOf line then
    .ok { st with stack := (BKind.kif, ip, none) :: st.stack }
  else if line = TOK_ELSE then
    match st.stack with
    | (BKind.kif, start_ip, _) :: rest =>
      -- pop and re-push with the (possibly overwritten) else index
      .ok { st with stack := (BKind.kif, start_ip, some ip) :: rest }
    | _ => .error .syntaxErr          -- "ELSE without IF"
  else if TOK_WHILE.isPrefixOf line then
    .ok { st with stack := (BKind.kwhile, ip, none) :: st.stack }
  else if line = TOK_END then
    match st.stack with
    | [] => .error .syntaxErr         -- "END without block"
    | (BKind.kif, start_ip, else_ip) :: rest =>
      .ok { st with stack := rest, if_map := st.if_map ++ [(start_ip, ⟨else_ip, ip⟩)] }
    | (BKind.kwhile, start_ip, _) :: rest =>
      .ok { st with stack := rest, while_map := st.while_map ++ [(start_ip, ⟨start_ip, ip⟩)] }
  else .ok st

def indexGo : List Str → Nat → IndexState → Except MErr IndexState
  | [], _, st => .ok st
  | l :: ls, ip, st =>
    match indexLine st ip (clean_line l) with
    | .error e => .error e
    | .ok st' => indexGo ls (ip + 1) st'

/-- `index_blocks` (mentonlang.py:304): scan all lines, then fail if any
block is left open. -/
def index_blocks (lines : List Str) : Except MErr ProgramIndex :=
  match indexGo lines 0 ⟨[], [], []⟩ with
  | .error e => .error e
  | .ok st => if st.stack = [] then .ok ⟨st.if_map, st.while_map⟩ else .error .syntaxErr

/-! ## Conditions (mentonlang.py:349-377) -/

/-- Comparator; the source uses the strings `==`, `>`, `<` (the
`Unknown op` branch of `eval_condition` is unreachable). -/
inductive Cmp where
  | ceq : Cmp
  | cgt : Cmp
  | clt : Cmp
deriving DecidableEq, Repr

/-- `parse_condition` (mentonlang.py:349): whitespace-split the line,
parts[1] is the operand, optional parts[2] the comparator (anything after
parts[2] is silently ignored, as in the source). -/
def parse_condition (line : Str) : Except MErr (Int × Cmp) :=
  let parts := pySplit (pyStrip line)
  match parts[1]? with
  | none => .error .syntaxErr         -- "Missing number in condition"
  | some nstr =>
    match parse_number_or_none nstr with
    | none => .error .syntaxErr       -- "Invalid number in condition"
    | some n =>
      match parts[2]? with
      | none => .ok (n, Cmp.ceq)
      | some c =>
        if c = CMP_GT then .ok (n, Cmp.cgt)
        else if c = CMP_LT then .ok (n, Cmp.clt)
        else .error .syntaxErr        -- "Unknown comparator"

/-- `eval_condition` (mentonlang.py:370). -/
def eval_condition (cur n : Int) : Cmp → Bool
  | Cmp.ceq => cur = n
  | Cmp.cgt => n < cur
  | Cmp.clt => cur < n

/-! ## Interpreter state (mentonlang.py:383-397) -/

structure MState where
  regs : List Int
  cur_idx : Nat
  output_chunks : List Str
  ip : Nat
deriving DecidableEq, Repr

/-- `Interpreter.__init__` register state (mentonlang.py:388-391):
`len(REG_TO_IDX)` zeros and the current register `멘똔`; the run loop
starts at `ip = 0`. -/
def initState : MState :=
  { regs := List.replicate REG_TOKENS.length 0
    cur_idx := (regLookup "멘똔".toList).getD 0
    output_chunks := []
    ip := 0 }

def cur_value (s : MState) : Int := s.regs.getD s.cur_idx 0

def set_cur_value (s : MState) (v : Int) : MState :=
  { s with regs := s.regs.set s.cur_idx v }

/-! ## Output blocks (mentonlang.py:536-592) -/

/-- Python `str(v)` for an arbitrary-precision integer. -/
def natToStr (n : Nat) : Str := Nat.toDigits 10 n

def intToStr (v : Int) : Str :=
  if v < 0 then '-' :: natToStr (-v).toNat else natToStr v.toNat

/-- The scan of `_exec_output_block` (mentonlang.py:544-553) over the
lines after the opener: collect cleaned non-empty lines until a
terminator line; returns the content, the terminator line, and the
offset of the terminator within the scanned list.  `none` means the
program ended with no terminator ("unterminated output block"). -/
def scanOutput : List Str → Option (List Str × Str × Nat)
  | [] => none
  | l :: ls =>
    let line := clean_line l
    if line = [] then (scanOutput ls).map (fun r => (r.1, r.2.1, r.2.2 + 1))
    else if line = TOK_PRINT_NUM_END ∨ line = TOK_PRINT_CHAR_END then some ([], line, 0)
    else (scanOutput ls).map (fun r => (line :: r.1, r.2.1, r.2.2 + 1))

/-- Numeric-mode rendering (mentonlang.py:558-575): shortcuts, then a
register's current value or a decoded numeral, as decimal text. -/
def renderNum (regs : List Int) : List Str → Except MErr (List Str)
  | [] => .ok []
  | item :: rest =>
    if item = TOK_OUT_SPACE then (renderNum regs rest).map ([' '] :: ·)
    else if item = TOK_OUT_NEWLINE then (renderNum regs rest).map (['\n'] :: ·)
    else
      match regLookup item with
      | some i => (renderNum regs rest).map (intToStr (regs.getD i 0) :: ·)
      | none =>
        match parse_number_or_none item with
        | none => .error .syntaxErr   -- "Invalid number/register in numeric output"
        | some v => (renderNum regs rest).map (intToStr v :: ·)

/-- Character-mode rendering (mentonlang.py:576-590): shortcuts, then a
decoded numeral emitted as the single character `chr(v % 256)`; register
tokens are not consulted (they fail the numeral decode). -/
def renderChar : List Str → Except MErr (List Str)
  | [] => .ok []
  | item :: rest =>
    if item = TOK_OUT_SPACE then (renderChar rest).map ([' '] :: ·)
    else if item = TOK_OUT_NEWLINE then (renderChar rest).map (['\n'] :: ·)
    else
      match parse_number_or_none item with
      | none => .error .syntaxErr     -- "Invalid number in ASCII output (register not allowed)"
      | some v => (renderChar rest).map ([Char.ofNat (v % 256).toNat] :: ·)

/-- `_exec_output_block` (mentonlang.py:536): scan from `start_ip + 1`,
render the content in the terminator's mode, and return the produced
chunks together with the instruction index just past the terminator. -/
def exec_output_block (lines : List Str) (regs : List Int) (start_ip : Nat) :
    Except MErr (List Str × Nat) :=
  match scanOutput (lines.drop (start_ip + 1)) with
  | none => .error .syntaxErr         -- "Unterminated output block"
  | some (content, term, j) =>
    let t := start_ip + 1 + j
    if term = TOK_PRINT_NUM_END then (renderNum regs content).map (fun cs => (cs, t + 1))
    else (renderChar content).map (fun cs => (cs, t + 1))

/-! ## The execution engine (mentonlang.py:399-534) -/

/-- `self.index.if_map.get(ip)`. -/
def lookupIf (idx : ProgramIndex) (ip : Nat) : Option IfMeta := idx.if_map.lookup ip

/-- `self.index.while_map.get(ip)`. -/
def lookupWhile (idx : ProgramIndex) (ip : Nat) : Option WhileMeta := idx.while_map.lookup ip

/-- Reverse lookup of the `if` block owning an `else` line
(mentonlang.py:435-439): first entry, in insertion order, whose recorded
else index is this ip. -/
def findElseOwner (idx : ProgramIndex) (ip : Nat) : Option IfMeta :=
  (idx.if_map.find? (fun p => p.2.else_ip = some ip)).map (·.2)

/-- Reverse lookup of the `while` block closed by an `end` line
(mentonlang.py:459-463). -/
def findWhileOwner (idx : ProgramIndex) (ip : Nat) : Option Nat :=
  (idx.while_map.find? (fun p => p.2.end_ip = ip)).map (·.1)

/-- Result of one iteration of the `run` loop: the loop either exits
(`ip ≥ len(lines)`), steps to a new state, or raises. -/
inductive StepOut where
  | halt (out : List Str) : StepOut
  | next (s : MState) : StepOut
  | fail (e : MErr) : StepOut
deriving DecidableEq, Repr

/-- One iteration of `Interpreter.run` (mentonlang.py:399-534), with the
source's dispatch order.

The `mul` suite (mentonlang.py:512-529) is dedented out of its enclosing
`if`/`while` suites in the source file, which makes the module raise
IndentationError when loaded; the `mul` branch below embeds the evident
intended logic of those lines as written. -/
def stepLine (lines : List Str) (idx : ProgramIndex) (s : MState) (line : Str) : StepOut :=
  if line = [] then .next { s with ip := s.ip + 1 }
    else if is_register_token line then
      .next { s with cur_idx := (regLookup line).getD 0, ip := s.ip + 1 }
    else if line = TOK_PRINT_START then
      match exec_output_block lines s.regs s.ip with
      | .error e => .fail e
      | .ok (chunks, ip') => .next { s with output_chunks := s.output_chunks ++ chunks, ip := ip' }
    else if TOK_IF.isPrefixOf line then
      match parse_condition line with
      | .error e => .fail e
      | .ok (n, op) =>
        match lookupIf idx s.ip with
        | none => .fail .internalErr  -- "Missing IF meta"
        | some meta =>
          if eval_condition (cur_value s) n op then .next { s with ip := s.ip + 1 }
          else
            match meta.else_ip with
            | some e => .next { s with ip := e + 1 }
            | none => .next { s with ip := meta.end_ip + 1 }
    else if line = TOK_ELSE then
      match findElseOwner idx s.ip with
      | none => .fail .internalErr    -- "ELSE meta not found"
      | some owner => .next { s with ip := owner.end_ip + 1 }
    else if TOK_WHILE.isPrefixOf line then
      match parse_condition line with
      | .error e => .fail e
      | .ok (n, op) =>
        match lookupWhile idx s.ip with
        | none => .fail .internalErr  -- "Missing WHILE meta"
        | some meta =>
          if eval_condition (cur_value s) n op then .next { s with ip := s.ip + 1 }
          else .next { s with ip := meta.end_ip + 1 }
    else if line = TOK_END then
      match findWhileOwner idx s.ip with
      | some wstart => .next { s with ip := wstart }
      | none => .next { s with ip := s.ip + 1 }
    else if TOK_SET.isPrefixOf line then
      let rest := pyStrip (line.drop TOK_SET.length)
      if rest = [] then .next { set_cur_value s 0 with ip := s.ip + 1 }
      else
        match parse_number_or_none rest with
        | none => .fail .syntaxErr    -- "Invalid number for SET"
        | some v => .next { set_cur_value s v with ip := s.ip + 1 }
    else if line = TOK_RESET then .next { set_cur_value s 0 with ip := s.ip + 1 }
    else if TOK_ADD.isPrefixOf line then
      let rest := pyStrip (line.drop TOK_ADD.length)
      if rest = [] then .next { set_cur_value s (cur_value s + 1) with ip := s.ip + 1 }
      else
        match parse_number_or_none rest with
        | none => .fail .syntaxErr    -- "Invalid number for ADD"
        | some v => .next { set_cur_value s (cur_value s + v) with ip := s.ip + 1 }
    else if TOK_SUB.isPrefixOf line then
      let rest := pyStrip (line.drop TOK_SUB.length)
      if rest = [] then .next { set_cur_value s (cur_value s - 1) with ip := s.ip + 1 }
      else
        match parse_number_or_none rest with
        | none => .fail .syntaxErr    -- "Invalid number for SUB"
        | some v => .next { set_cur_value s (cur_value s - v) with ip := s.ip + 1 }
    else if TOK_MUL.isPrefixOf line then
      let rest := pyStrip (line.drop TOK_MUL.length)
      if rest = [] then .fail .syntaxErr  -- "MUL missing operand"
      else
        match regLookup rest with
        | some i => .next { set_cur_value s (cur_value s * s.regs.getD i 0) with ip := s.ip + 1 }
        | none =>
          match parse_number_or_none rest with
          | none => .fail .syntaxErr  -- "MUL operand must be a register token or number"
          | some v => .next { set_cur_value s (cur_value s * v) with ip := s.ip + 1 }
    else .fail .syntaxErr             -- "Unknown statement"

def step (lines : List Str) (idx : ProgramIndex) (s : MState) : StepOut :=
  if s.ip < lines.length then stepLine lines idx s (clean_line (lines.getD s.ip []))
  else .halt s.output_chunks

/-- The `while ip < len(self.lines)` loop of `run`, with fuel (the
language permits non-terminating programs).  On an uncaught error the
partial output buffer is attached, to make "no output was produced"
statable; it is discarded by the process boundary in the source. -/
def runLoop (lines : List Str) (idx : ProgramIndex) :
    Nat → MState → Option (Except (MErr × List Str) (List Str))
  | 0, _ => none
  | f + 1, s =>
    match step lines idx s with
    | .halt out => some (.ok out)
    | .fail e => some (.error (e, s.output_chunks))
    | .next s' => runLoop lines idx f s'

/-- The whole pipeline `Interpreter(lines); interp.run()`: the
constructor runs `index_blocks` before any instruction executes
(mentonlang.py:384-386), so an indexing failure carries an empty output
buffer. -/
def run_program (lines : List Str) (fuel : Nat) :
    Option (Except (MErr × List Str) (List Str)) :=
  match index_blocks lines with
  | .error e => some (.error (e, []))
  | .ok idx => runLoop lines idx fuel initState

/-! ## Invariant statements used by the indexer claims -/

/-- Every open block on the indexing stack started strictly before the
current scan position, and a recorded else index lies strictly between
the block start and the scan position. -/
def StackBounded (stack : List (BKind × Nat × Option Nat)) (n : Nat) : Prop :=
  ∀ ent ∈ stack, ent.2.1 < n ∧ ∀ e ∈ ent.2.2, ent.2.1 < e ∧ e < n

/-- Every recorded block satisfies start < end < n, a recorded else
index lies strictly between start and end, and a while entry's stored
start equals its key. -/
def MapsBounded (ifm : List (Nat × IfMeta)) (whm : List (Nat × WhileMeta)) (n : Nat) : Prop :=
  (∀ p ∈ ifm, p.1 < p.2.end_ip ∧ p.2.end_ip < n ∧
    ∀ e ∈ p.2.else_ip, p.1 < e ∧ e < p.2.end_ip) ∧
  (∀ p ∈ whm, p.2.start_ip = p.1 ∧ p.1 < p.2.end_ip ∧ p.2.end_ip < n)

/-- What character mode does to a single output item, per the output
renderer's contract: the space and newline shortcuts, else the decoded
numeral's value modulo 256 as exactly one character; `none` is a syntax
error. -/
def charItemRender (item : Str) : Option Str :=
  if item = TOK_OUT_SPACE then some [' ']
  else if item = TOK_OUT_NEWLINE then some ['\n']
  else (parse_number_or_none item).map (fun v => [Char.ofNat (v % 256).toNat])

/-! ## Facts about the string primitives -/

theorem pyStrip_eq_rdrop (l : Str) :
    pyStrip l = List.rdropWhile Char.isWhitespace (l.dropWhile Char.isWhitespace) := rfl

theorem length_dropWhile_le (p : Char → Bool) (l : Str) :
    (l.dropWhile p).length ≤ l.length := by
  induction l with
  | nil => simp
  | cons c cs ih =>
    rw [List.dropWhile_cons]
    split
    · exact Nat.le_trans ih (Nat.le_succ _)
    · simp

theorem dropWhile_eq_self_of_head {p : Char → Bool} {c : Char} {l : Str} (hc : p c = false) :
    (c :: l).dropWhile p = c :: l := by
  simp [List.dropWhile_cons, hc]

theorem head_false_of_dropWhile_self {p : Char → Bool} {c : Char} {l : Str}
    (h : (c :: l).dropWhile p = c :: l) : p c = false := by
  by_cases hp : p c = true
  · rw [List.dropWhile_cons, if_pos hp] at h
    have hle := length_dropWhile_le p l
    rw [h] at hle
    simp at hle
  · simpa using hp

theorem dropWhile_rdropWhile_self {p : Char → Bool} {u : Str} (hu : u.dropWhile p = u) :
    (List.rdropWhile p u).dropWhile p = List.rdropWhile p u := by
  cases hr : List.rdropWhile p u with
  | nil => simp
  | cons c cs =>
    obtain ⟨t, ht⟩ := List.rdropWhile_prefix p u
    rw [hr] at ht
    have hu' : u = c :: (cs ++ t) := by simpa using ht.symm
    rw [hu'] at hu
    exact dropWhile_eq_self_of_head (head_false_of_dropWhile_self hu)

theorem pyStrip_idem (l : Str) : pyStrip (pyStrip l) = pyStrip l := by
  rw [pyStrip_eq_rdrop, pyStrip_eq_rdrop,
    dropWhile_rdropWhile_self (List.dropWhile_idempotent Char.isWhitespace l),
    List.rdropWhile_idempotent]

theorem clean_line_strip (raw : Str) : pyStrip (clean_line raw) = clean_line raw := by
  unfold clean_line
  exact pyStrip_idem _

/-- Stripping keeps the head character when it is not whitespace (unless
everything is removed). -/
theorem pyStrip_head {l : Str} {c : Char} (h : l.head? = some c)
    (hc : c.isWhitespace = false) : pyStrip l = [] ∨ (pyStrip l).head? = some c := by
  cases l with
  | nil => simp at h
  | cons c0 rest =>
    have hc0 : c0 = c := by simpa using h
    subst hc0
    rw [pyStrip_eq_rdrop, dropWhile_eq_self_of_head hc]
    cases hr : List.rdropWhile Char.isWhitespace (c0 :: rest) with
    | nil => exact Or.inl rfl
    | cons d ds =>
      obtain ⟨t, ht⟩ := List.rdropWhile_prefix Char.isWhitespace (c0 :: rest)
      rw [hr] at ht
      have : d = c0 := by simpa using congrArg List.head? ht
      subst this
      exact Or.inr rfl

theorem isDigit_not_ws {c : Char} (h : c.isDigit = true) : c.isWhitespace = false := by
  by_cases hw : c.isWhitespace = true
  · exfalso
    have : c = ' ' ∨ c = '\t' ∨ c = '\r' ∨ c = '\n' := by
      simpa [Char.isWhitespace, or_assoc] using hw
    rcases this with rfl | rfl | rfl | rfl <;> revert h <;> decide
  · simpa using hw

theorem pyStrip_of_digits {l : Str} (h : l.all Char.isDigit = true) : pyStrip l = l := by
  have hall : ∀ x ∈ l, x.isDigit = true := List.all_eq_true.1 h
  have h1 : l.dropWhile Char.isWhitespace = l := by
    cases l with
    | nil => rfl
    | cons c cs =>
      exact dropWhile_eq_self_of_head (isDigit_not_ws (hall c (by simp)))
  have h2 : List.rdropWhile Char.isWhitespace l = l := by
    rw [List.rdropWhile_eq_self_iff]
    intro hl
    simp [isDigit_not_ws (hall _ (List.getLast_mem hl))]
  rw [pyStrip_eq_rdrop, h1, h2]

/-! ## Facts about the register table -/

theorem regLookup_lt {t : Str} {i : Nat} (h : regLookup t = some i) : i < 58 := by
  obtain ⟨hl, -, -⟩ := List.findIdx?_eq_some_iff_getElem.1 h
  have h58 : REG_TOKENS.length = 58 := by decide
  omega

theorem regLookup_mem {t : Str} {i : Nat} (h : regLookup t = some i) : t ∈ REG_TOKENS := by
  obtain ⟨hl, hp, -⟩ := List.findIdx?_eq_some_iff_getElem.1 h
  have : REG_TOKENS[i] = t := by simpa using hp
  rw [← this]
  exact List.getElem_mem hl

theorem regLookup_none_of_head {t : Str} {c : Char} (ht : t.head? = some c)
    (h : REG_TOKENS.all (fun tok => tok.head? ≠ some c) = true) : regLookup t = none := by
  apply List.findIdx?_eq_none_iff.2
  intro tok htok
  have hne : tok.head? ≠ some c := by
    have := List.all_eq_true.1 h tok htok
    simpa using this
  simp only [decide_eq_false_iff_not]
  intro heq
  exact hne (heq ▸ ht)

/-- No register token decodes as a numeral, and none is an output
shortcut (checked over all 58 tokens). -/
theorem reg_token_not_numeral :
    REG_TOKENS.all (fun tok =>
      parse_number_or_none tok = none ∧ tok ≠ TOK_OUT_SPACE ∧ tok ≠ TOK_OUT_NEWLINE) = true := by
  decide

/-! ## C10: register bank and current-register pointer -/

/-- C10: a fresh interpreter has 58 registers all holding 0 and the
current-register pointer at the named register `멘똔` (table index 0); a
step only ever reassigns the pointer to an index obtained from the
register table, so it stays a valid index below 58. -/
theorem registers_init_and_cur_idx_invariant :
    REG_TOKENS.length = 58 ∧
    initState.regs = List.replicate 58 0 ∧
    initState.cur_idx = 0 ∧
    regLookup "멘똔".toList = some 0 ∧
    (∀ lines idx s s', s.cur_idx < 58 → step lines idx s = StepOut.next s' →
      s'.cur_idx < 58) := by
  refine ⟨by decide, by decide, by decide, by decide, ?_⟩
  intro lines idx s s' hcur hstep
  unfold step at hstep
  by_cases hip : s.ip < lines.length
  · rw [if_pos hip] at hstep
    generalize hL : clean_line (lines.getD s.ip []) = L at hstep
    have hLs : pyStrip L = L := hL ▸ clean_line_strip _
    unfold stepLine at hstep
    by_cases h1 : L = []
    · rw [if_pos h1] at hstep; cases hstep; exact hcur
    rw [if_neg h1] at hstep
    by_cases h2 : is_register_token L = true
    · -- the register-selection branch: the pointer comes from the table
      rw [if_pos h2] at hstep
      cases hstep
      have hsome : (regLookup (pyStrip L)).isSome := h2
      rw [hLs] at hsome
      obtain ⟨i, hi⟩ := Option.isSome_iff_exists.1 hsome
      simpa [hi] using regLookup_lt hi
    rw [if_neg h2] at hstep
    -- every other branch leaves the pointer unchanged
    generalize exec_output_block lines s.regs s.ip = E at hstep
    generalize parse_condition L = PC at hstep
    generalize lookupIf idx s.ip = LI at hstep
    generalize findElseOwner idx s.ip = EO at hstep
    generalize lookupWhile idx s.ip = LW at hstep
    generalize findWhileOwner idx s.ip = WO at hstep
    generalize pyStrip (L.drop TOK_SET.length) = r1 at hstep
    generalize pyStrip (L.drop TOK_ADD.length) = r2 at hstep
    generalize pyStrip (L.drop TOK_SUB.length) = r3 at hstep
    generalize pyStrip (L.drop TOK_MUL.length) = r4 at hstep
    by_cases h3 : L = TOK_PRINT_START
    · rw [if_pos h3] at hstep
      rcases E with e | ⟨chunks, ip'⟩
      · cases hstep
      · cases hstep; exact hcur
    rw [if_neg h3] at hstep
    by_cases h4 : TOK_IF.isPrefixOf L = true
    · rw [if_pos h4] at hstep
      rcases PC with e | ⟨n, op⟩
      · cases hstep
      · simp only [] at hstep
        rcases LI with - | meta
        · cases hstep
        · simp only [] at hstep
          obtain ⟨els, eip⟩ := meta
          by_cases hc : eval_condition (cur_value s) n op = true
          · rw [if_pos hc] at hstep; cases hstep; exact hcur
          · rw [if_neg hc] at hstep
            rcases els with - | e
            · cases hstep; exact hcur
            · cases hstep; exact hcur
    rw [if_neg h4] at hstep
    by_cases h5 : L = TOK_ELSE
    · rw [if_pos h5] at hstep
      rcases EO with - | owner
      · cases hstep
      · cases hstep; exact hcur
    rw [if_neg h5] at hstep
    by_cases h6 : TOK_WHILE.isPrefixOf L = true
    · rw [if_pos h6] at hstep
      rcases PC with e | ⟨n, op⟩
      · cases hstep
      · simp only [] at hstep
        rcases LW with - | meta
        · cases hstep
        · simp only [] at hstep
          by_cases hc : eval_condition (cur_value s) n op = true
          · rw [if_pos hc] at hstep; cases hstep; exact hcur
          · rw [if_neg hc] at hstep; cases hstep; exact hcur
    rw [if_neg h6] at hstep
    by_cases h7 : L = TOK_END
    · rw [if_pos h7] at hstep
      rcases WO with - | w
      · cases hstep; exact hcur
      · cases hstep; exact hcur
    rw [if_neg h7] at hstep
    by_cases h8 : TOK_SET.isPrefixOf L = true
    · rw [if_pos h8] at hstep
      by_cases hr : r1 = []
      · rw [if_pos hr] at hstep; cases hstep; simpa [set_cur_value] using hcur
      · rw [if_neg hr] at hstep
        rcases hP : parse_number_or_none r1 with - | v <;> rw [hP] at hstep
        · cases hstep
        · cases hstep; simpa [set_cur_value] using hcur
    rw [if_neg h8] at hstep
    by_cases h9 : L = TOK_RESET
    · rw [if_pos h9] at hstep; cases hstep; simpa [set_cur_value] using hcur
    rw [if_neg h9] at hstep
    by_cases h10 : TOK_ADD.isPrefixOf L = true
    · rw [if_pos h10] at hstep
      by_cases hr : r2 = []
      · rw [if_pos hr] at hstep; cases hstep; simpa [set_cur_value] using hcur
      · rw [if_neg hr] at hstep
        rcases hP : parse_number_or_none r2 with - | v <;> rw [hP] at hstep
        · cases hstep
        · cases hstep; simpa [set_cur_value] using hcur
    rw [if_neg h10] at hstep
    by_cases h11 : TOK_SUB.isPrefixOf L = true
    · rw [if_pos h11] at hstep
      by_cases hr : r3 = []
      · rw [if_pos hr] at hstep; cases hstep; simpa [set_cur_value] using hcur
      · rw [if_neg hr] at hstep
        rcases hP : parse_number_or_none r3 with - | v <;> rw [hP] at hstep
        · cases hstep
        · cases hstep; simpa [set_cur_value] using hcur
    rw [if_neg h11] at hstep
    by_cases h12 : TOK_MUL.isPrefixOf L = true
    · rw [if_pos h12] at hstep
      by_cases hr : r4 = []
      · rw [if_pos hr] at hstep; cases hstep
      · rw [if_neg hr] at hstep
        rcases hR : regLookup r4 with - | i <;> rw [hR] at hstep
        · rcases hP : parse_number_or_none r4 with - | v <;> rw [hP] at hstep
          · cases hstep
          · cases hstep; simpa [set_cur_value] using hcur
        · cases hstep; simpa [set_cur_value] using hcur
    rw [if_neg h12] at hstep
    cases hstep
  · rw [if_neg hip] at hstep
    cases hstep

/-- Witness for C10: stepping the one-line program `멘가멘가` from the
initial state selects register 9, which is a valid index. -/
theorem registers_invariant_witness :
    (MState.mk (List.replicate REG_TOKENS.length 0) 9 [] 1).cur_idx < 58 :=
  registers_init_and_cur_idx_invariant.2.2.2.2 ["멘가멘가".toList] ⟨[], []⟩ initState
    (MState.mk (List.replicate REG_TOKENS.length 0) 9 [] 1) (by decide) (by rfl)

/-! ## C4: plain decimal strings take precedence -/

/-- C4: on a plain ASCII decimal digit string, `parse_arabic_int`
returns its value, and `parse_number_or_none` returns the same without
the laugh grammar being attempted (the decimal result short-circuits
it). -/
theorem decimal_precedence (s : Str) (h : s ≠ [] ∧ s.all Char.isDigit = true) :
    parse_arabic_int s = some (decVal s : Int) ∧
    parse_number_or_none s = parse_arabic_int s ∧
    parse_number_or_none s = some (decVal s : Int) := by
  obtain ⟨hne, hall⟩ := h
  have hs : pyStrip s = s := pyStrip_of_digits hall
  have h1 : parse_arabic_int s = some (decVal s : Int) := by
    cases s with
    | nil => exact absurd rfl hne
    | cons c ds =>
      have hc : c.isDigit = true := List.all_eq_true.1 hall c (by simp)
      have hcm : ¬c = '-' := by rintro rfl; revert hc; decide
      have hcp : ¬c = '+' := by rintro rfl; revert hc; decide
      unfold parse_arabic_int
      rw [hs]
      simp only []
      rw [if_neg hcm, if_neg hcp, if_pos hall]
  refine ⟨h1, ?_, ?_⟩ <;> unfold parse_number_or_none <;> rw [h1]

theorem decimal_precedence_witness :
    parse_number_or_none "207".toList = some (decVal "207".toList : Int) :=
  (decimal_precedence "207".toList ⟨by decide, by decide⟩).2.2

/-! ## C8: structural errors are raised before any output -/

/-- C8: when block indexing fails, the whole run fails with that error
and an empty output buffer, for every fuel bound — the indexing pass
runs in the interpreter constructor, before any instruction executes. -/
theorem structural_error_no_output (lines : List Str) (e : MErr)
    (h : index_blocks lines = Except.error e) :
    ∀ fuel, run_program lines fuel = some (Except.error (e, [])) := by
  intro fuel
  unfold run_program
  rw [h]

theorem structural_error_no_output_witness :
    run_program ["쉐끼마".toList] 5 = some (Except.error (MErr.syntaxErr, [])) :=
  structural_error_no_output ["쉐끼마".toList] MErr.syntaxErr rfl 5

/-! ## C3: a bare else during indexing -/

/-- Counterexample to C3: a second `else` for the same open `if` is
not rejected — indexing succeeds, silently overwriting the recorded
else index with the second one (line 2). -/
theorem second_else_not_rejected :
    index_blocks ["건방진 1".toList, "정신이 나갔어 정신이".toList,
        "정신이 나갔어 정신이".toList, "쉐끼마".toList]
      = Except.ok ⟨[(0, ⟨some 2, 3⟩)], []⟩ := rfl

/-- C3 (amended): during indexing a bare `else` line succeeds exactly
when the innermost open block is an `if` — whether or not an else index
was already recorded; a later else overwrites the recorded index — and
in every other case (empty stack, or innermost block a `while`) it
fails with a syntax error. -/
theorem else_line_indexing (st : IndexState) (ip : Nat) :
    (∀ st', indexLine st ip TOK_ELSE = Except.ok st' ↔
      ∃ s0 e rest, st.stack = (BKind.kif, s0, e) :: rest ∧
        st' = { st with stack := (BKind.kif, s0, some ip) :: rest }) ∧
    ((∀ s0 e rest, st.stack ≠ (BKind.kif, s0, e) :: rest) →
      indexLine st ip TOK_ELSE = Except.error MErr.syntaxErr) := by
  have hred : indexLine st ip TOK_ELSE =
      match st.stack with
      | (BKind.kif, s0, _) :: rest =>
        Except.ok { st with stack := (BKind.kif, s0, some ip) :: rest }
      | _ => Except.error MErr.syntaxErr := by
    unfold indexLine
    rw [if_neg (by decide : ¬(TOK_ELSE : Str) = []),
      if_neg (by decide : ¬TOK_IF.isPrefixOf TOK_ELSE = true), if_pos rfl]
  constructor
  · intro st'
    rw [hred]
    rcases hstack : st.stack with - | ⟨⟨k, s0, e⟩, rest⟩
    · constructor
      · intro h; cases h
      · rintro ⟨s0, e, rest, habs, -⟩
        cases habs
    · cases k with
      | kif =>
        constructor
        · intro h
          cases h
          exact ⟨s0, e, rest, rfl, rfl⟩
        · rintro ⟨s0', e', rest', hsr, rfl⟩
          cases hsr
          rfl
      | kwhile =>
        constructor
        · intro h; cases h
        · rintro ⟨s0', e', rest', habs, -⟩
          simp at habs
  · intro hne
    rw [hred]
    rcases hstack : st.stack with - | ⟨⟨k, s0, e⟩, rest⟩
    · rfl
    · cases k with
      | kif => exact absurd hstack (hne s0 e rest)
      | kwhile => rfl

theorem else_line_indexing_witness :
    indexLine ⟨[], [], []⟩ 0 TOK_ELSE = Except.error MErr.syntaxErr :=
  (else_line_indexing ⟨[], [], []⟩ 0).2 (fun _ _ _ h => List.noConfusion h)

/-! ## The indexing invariant (C9, and jump-target bounds for C5) -/

theorem stackBounded_mono {stack : List (BKind × Nat × Option Nat)} {n m : Nat}
    (h : StackBounded stack n) (hnm : n ≤ m) : StackBounded stack m := by
  intro ent hmem
  obtain ⟨h1, h2⟩ := h ent hmem
  exact ⟨by omega, fun e he => ⟨(h2 e he).1, by have := (h2 e he).2; omega⟩⟩

theorem mapsBounded_mono {ifm whm} {n m : Nat}
    (h : MapsBounded ifm whm n) (hnm : n ≤ m) : MapsBounded ifm whm m := by
  obtain ⟨h1, h2⟩ := h
  constructor
  · intro p hp
    obtain ⟨a, b, c⟩ := h1 p hp
    exact ⟨a, by omega, c⟩
  · intro p hp
    obtain ⟨a, b, c⟩ := h2 p hp
    exact ⟨a, b, by omega⟩

theorem indexLine_bounds {st : IndexState} {ip : Nat} {line : Str} {st' : IndexState}
    (hst : StackBounded st.stack ip) (hmp : MapsBounded st.if_map st.while_map ip)
    (h : indexLine st ip line = Except.ok st') :
    StackBounded st'.stack (ip + 1) ∧ MapsBounded st'.if_map st'.while_map (ip + 1) := by
  unfold indexLine at h
  by_cases g1 : line = []
  · rw [if_pos g1] at h
    cases h
    exact ⟨stackBounded_mono hst (by omega), mapsBounded_mono hmp (by omega)⟩
  rw [if_neg g1] at h
  by_cases g2 : TOK_IF.isPrefixOf line = true
  · rw [if_pos g2] at h
    cases h
    refine ⟨?_, mapsBounded_mono hmp (by omega)⟩
    intro ent hmem
    rcases List.mem_cons.1 hmem with rfl | hmem'
    · exact ⟨Nat.lt_succ_self ip, by simp⟩
    · exact stackBounded_mono hst (by omega) ent hmem'
  rw [if_neg g2] at h
  by_cases g3 : line = TOK_ELSE
  · rw [if_pos g3] at h
    rcases hstack : st.stack with - | ⟨⟨k, s0, e⟩, rest⟩ <;> rw [hstack] at h
    · cases h
    · cases k with
      | kif =>
        cases h
        refine ⟨?_, mapsBounded_mono hmp (by omega)⟩
        intro ent hmem
        rcases List.mem_cons.1 hmem with rfl | hmem'
        · have htop : s0 < ip ∧ ∀ x ∈ e, s0 < x ∧ x < ip :=
            hst (BKind.kif, s0, e) (by rw [hstack]; exact List.mem_cons_self _ _)
          refine ⟨(by omega : s0 < ip + 1), ?_⟩
          intro e' he'
          have hip : ip = e' := by simpa using he'
          subst hip
          exact ⟨htop.1, Nat.lt_succ_self ip⟩
        · have := hst ent (by rw [hstack]; exact List.mem_cons_of_mem _ hmem')
          exact ⟨by omega, fun e' he' => ⟨(this.2 e' he').1, by have := (this.2 e' he').2; omega⟩⟩
      | kwhile => cases h
  rw [if_neg g3] at h
  by_cases g4 : TOK_WHILE.isPrefixOf line = true
  · rw [if_pos g4] at h
    cases h
    refine ⟨?_, mapsBounded_mono hmp (by omega)⟩
    intro ent hmem
    rcases List.mem_cons.1 hmem with rfl | hmem'
    · exact ⟨Nat.lt_succ_self ip, by simp⟩
    · exact stackBounded_mono hst (by omega) ent hmem'
  rw [if_neg g4] at h
  by_cases g5 : line = TOK_END
  · rw [if_pos g5] at h
    rcases hstack : st.stack with - | ⟨⟨k, s0, e⟩, rest⟩ <;> rw [hstack] at h
    · cases h
    · have htop : s0 < ip ∧ ∀ x ∈ e, s0 < x ∧ x < ip :=
        hst (k, s0, e) (by rw [hstack]; exact List.mem_cons_self _ _)
      have hrest : StackBounded rest (ip + 1) := by
        intro ent hmem
        have := hst ent (by rw [hstack]; exact List.mem_cons_of_mem _ hmem)
        exact ⟨by omega, fun e' he' => ⟨(this.2 e' he').1, by have := (this.2 e' he').2; omega⟩⟩
      cases k with
      | kif =>
        cases h
        refine ⟨hrest, ?_, fun p hp => ?_⟩
        · intro p hp
          rcases List.mem_append.1 hp with hp' | hp'
          · obtain ⟨a, b, c⟩ := hmp.1 p hp'
            exact ⟨a, by omega, c⟩
          · have hpe : p = (s0, (⟨e, ip⟩ : IfMeta)) := by simpa using hp'
            subst hpe
            exact ⟨htop.1, Nat.lt_succ_self ip, fun e' he' => (htop.2 e' he')⟩
        · obtain ⟨a, b, c⟩ := hmp.2 p hp
          exact ⟨a, b, by omega⟩
      | kwhile =>
        cases h
        refine ⟨hrest, fun p hp => ?_, fun p hp => ?_⟩
        · obtain ⟨a, b, c⟩ := hmp.1 p hp
          exact ⟨a, by omega, c⟩
        · rcases List.mem_append.1 hp with hp' | hp'
          · obtain ⟨a, b, c⟩ := hmp.2 p hp'
            exact ⟨a, b, by omega⟩
          · have hpe : p = (s0, (⟨s0, ip⟩ : WhileMeta)) := by simpa using hp'
            subst hpe
            exact ⟨rfl, htop.1, Nat.lt_succ_self ip⟩
  rw [if_neg g5] at h
  cases h
  exact ⟨stackBounded_mono hst (by omega), mapsBounded_mono hmp (by omega)⟩

theorem indexGo_bounds :
    ∀ (ls : List Str) (ip : Nat) (st st' : IndexState),
      indexGo ls ip st = Except.ok st' →
      StackBounded st.stack ip → MapsBounded st.if_map st.while_map ip →
      StackBounded st'.stack (ip + ls.length) ∧
        MapsBounded st'.if_map st'.while_map (ip + ls.length) := by
  intro ls
  induction ls with
  | nil =>
    intro ip st st' h hst hmp
    cases h
    simpa using ⟨hst, hmp⟩
  | cons l ls ih =>
    intro ip st st' h hst hmp
    unfold indexGo at h
    rcases hline : indexLine st ip (clean_line l) with e | st1 <;> rw [hline] at h
    · cases h
    · obtain ⟨hst1, hmp1⟩ := indexLine_bounds hst hmp hline
      have := ih (ip + 1) st1 st' h hst1 hmp1
      have harith : ip + 1 + ls.length = ip + (l :: ls).length := by
        simp [List.length_cons]
        omega
      rwa [harith] at this

theorem index_blocks_bounds {lines : List Str} {idx : ProgramIndex}
    (h : index_blocks lines = Except.ok idx) :
    MapsBounded idx.if_map idx.while_map lines.length := by
  unfold index_blocks at h
  rcases hgo : indexGo lines 0 ⟨[], [], []⟩ with e | st <;> rw [hgo] at h
  · cases h
  · simp only [] at h
    by_cases hs : st.stack = []
    · rw [if_pos hs] at h
      cases h
      have := indexGo_bounds lines 0 ⟨[], [], []⟩ st hgo
        (by intro ent hmem; cases hmem)
        (by constructor <;> (intro p hp; cases hp))
      simpa using this.2
    · rw [if_neg hs] at h
      cases h

/-- C9: on a syntactically balanced program (one the indexer accepts),
every recorded `if` block has end ≥ start with any recorded else index
strictly between them, and every recorded `while` block has end ≥ its
start. -/
theorem indexer_block_maps (lines : List Str) (idx : ProgramIndex)
    (h : index_blocks lines = Except.ok idx) :
    (∀ p ∈ idx.if_map, p.1 ≤ p.2.end_ip ∧
      ∀ e ∈ p.2.else_ip, p.1 < e ∧ e < p.2.end_ip) ∧
    (∀ p ∈ idx.while_map, p.2.start_ip = p.1 ∧ p.1 ≤ p.2.end_ip) := by
  obtain ⟨h1, h2⟩ := index_blocks_bounds h
  constructor
  · intro p hp
    obtain ⟨a, -, c⟩ := h1 p hp
    exact ⟨Nat.le_of_lt a, c⟩
  · intro p hp
    obtain ⟨a, b, -⟩ := h2 p hp
    exact ⟨a, Nat.le_of_lt b⟩

theorem indexer_block_maps_witness : (0 : Nat) ≤ 2 ∧ (0 : Nat) < 1 := by
  have h := indexer_block_maps
    ["건방진 1".toList, "정신이 나갔어 정신이".toList, "쉐끼마".toList]
    ⟨[(0, ⟨some 1, 2⟩)], []⟩ rfl
  have hm := h.1 (0, ⟨some 1, 2⟩) (List.mem_singleton.2 rfl)
  exact ⟨hm.1, (hm.2 1 rfl).1⟩

/-! ## C5: the instruction pointer stays in range -/

theorem lookup_pair_mem {l : List (Nat × α)} {k : Nat} {b : α}
    (h : l.lookup k = some b) : (k, b) ∈ l := by
  obtain ⟨l₁, l₂, rfl, -⟩ := List.lookup_eq_some_iff.1 h
  exact List.mem_append.2 (Or.inr (List.mem_cons_self _ _))

theorem findElseOwner_mem {idx : ProgramIndex} {ip : Nat} {owner : IfMeta}
    (h : findElseOwner idx ip = some owner) :
    ∃ k, (k, owner) ∈ idx.if_map ∧ owner.else_ip = some ip := by
  unfold findElseOwner at h
  rcases hf : idx.if_map.find? (fun p => p.2.else_ip = some ip) with - | pr <;> rw [hf] at h
  · cases h
  · have hmem := List.mem_of_find?_eq_some hf
    have hp := List.find?_some hf
    cases h
    exact ⟨pr.1, by simpa using hmem, by simpa using hp⟩

theorem findWhileOwner_mem {idx : ProgramIndex} {ip w : Nat}
    (h : findWhileOwner idx ip = some w) :
    ∃ m, (w, m) ∈ idx.while_map ∧ m.end_ip = ip := by
  unfold findWhileOwner at h
  rcases hf : idx.while_map.find? (fun p => p.2.end_ip = ip) with - | pr <;> rw [hf] at h
  · cases h
  · have hmem := List.mem_of_find?_eq_some hf
    have hp := List.find?_some hf
    cases h
    exact ⟨pr.2, by simpa using hmem, by simpa using hp⟩

theorem scanOutput_offset_lt :
    ∀ (ls : List Str) c t j, scanOutput ls = some (c, t, j) → j < ls.length := by
  intro ls
  induction ls with
  | nil => intro c t j h; cases h
  | cons l ls ih =>
    intro c t j h
    unfold scanOutput at h
    by_cases h1 : clean_line l = []
    · rw [if_pos h1] at h
      rcases hs : scanOutput ls with - | ⟨c', t', j'⟩ <;> rw [hs] at h
      · cases h
      · cases h
        have := ih c' t' j' hs
        simp only [List.length_cons]
        omega
    · rw [if_neg h1] at h
      by_cases h2 : clean_line l = TOK_PRINT_NUM_END ∨ clean_line l = TOK_PRINT_CHAR_END
      · rw [if_pos h2] at h
        cases h
        simp
      · rw [if_neg h2] at h
        rcases hs : scanOutput ls with - | ⟨c', t', j'⟩ <;> rw [hs] at h
        · cases h
        · cases h
          have := ih c' t' j' hs
          simp only [List.length_cons]
          omega

theorem exec_output_block_ip_le {lines : List Str} {regs : List Int} {start : Nat}
    {cs : List Str} {ip' : Nat}
    (h : exec_output_block lines regs start = Except.ok (cs, ip'))
    (hstart : start < lines.length) : ip' ≤ lines.length := by
  unfold exec_output_block at h
  rcases hs : scanOutput (lines.drop (start + 1)) with - | ⟨content, term, j⟩ <;> rw [hs] at h
  · cases h
  · have hj := scanOutput_offset_lt _ _ _ _ hs
    rw [List.length_drop] at hj
    simp only [] at h
    by_cases ht : term = TOK_PRINT_NUM_END
    · rw [if_pos ht] at h
      rcases hr : renderNum regs content with e | cs' <;> rw [hr] at h <;>
        simp [Except.map] at h
      omega
    · rw [if_neg ht] at h
      rcases hr : renderChar content with e | cs' <;> rw [hr] at h <;>
        simp [Except.map] at h
      omega

/-- Every dispatch branch of the loop body either raises or steps to an
instruction pointer that is still within `[0, program length]`. -/
theorem stepLine_next_or_fail (lines : List Str) (idx : ProgramIndex) (s : MState) (L : Str)
    (hB : MapsBounded idx.if_map idx.while_map lines.length)
    (hip : s.ip < lines.length) :
    (∃ e, stepLine lines idx s L = StepOut.fail e) ∨
    (∃ s', stepLine lines idx s L = StepOut.next s' ∧ s'.ip ≤ lines.length) := by
  unfold stepLine
  by_cases g1 : L = []
  · rw [if_pos g1]
    exact Or.inr ⟨_, rfl, by simpa using hip⟩
  rw [if_neg g1]
  by_cases g2 : is_register_token L = true
  · rw [if_pos g2]
    exact Or.inr ⟨_, rfl, by simpa using hip⟩
  rw [if_neg g2]
  by_cases g3 : L = TOK_PRINT_START
  · rw [if_pos g3]
    rcases hE : exec_output_block lines s.regs s.ip with e | ⟨chunks, ip'⟩
    · exact Or.inl ⟨e, rfl⟩
    · exact Or.inr ⟨_, rfl, by simpa using exec_output_block_ip_le hE hip⟩
  rw [if_neg g3]
  by_cases g4 : TOK_IF.isPrefixOf L = true
  · rw [if_pos g4]
    rcases parse_condition L with e | ⟨n, op⟩
    · exact Or.inl ⟨e, rfl⟩
    · rcases hLI : lookupIf idx s.ip with - | ⟨els, eip⟩
      · exact Or.inl ⟨MErr.internalErr, rfl⟩
      · have hmem := lookup_pair_mem hLI
        have hb := hB.1 _ hmem
        simp only []
        by_cases hc : eval_condition (cur_value s) n op = true
        · rw [if_pos hc]
          exact Or.inr ⟨_, rfl, by simpa using hip⟩
        · rw [if_neg hc]
          rcases els with - | e
          · exact Or.inr ⟨_, rfl, by have := hb.2.1; simpa using this⟩
          · refine Or.inr ⟨_, rfl, ?_⟩
            have h1 := hb.2.1
            have h2 := (hb.2.2 e rfl).2
            simp only []
            omega
  rw [if_neg g4]
  by_cases g5 : L = TOK_ELSE
  · rw [if_pos g5]
    rcases hEO : findElseOwner idx s.ip with - | owner
    · exact Or.inl ⟨MErr.internalErr, rfl⟩
    · obtain ⟨k, hmem, -⟩ := findElseOwner_mem hEO
      have hb := hB.1 _ hmem
      exact Or.inr ⟨_, rfl, by have := hb.2.1; simpa using this⟩
  rw [if_neg g5]
  by_cases g6 : TOK_WHILE.isPrefixOf L = true
  · rw [if_pos g6]
    rcases parse_condition L with e | ⟨n, op⟩
    · exact Or.inl ⟨e, rfl⟩
    · rcases hLW : lookupWhile idx s.ip with - | meta
      · exact Or.inl ⟨MErr.internalErr, rfl⟩
      · have hmem := lookup_pair_mem hLW
        have hb := hB.2 _ hmem
        simp only []
        by_cases hc : eval_condition (cur_value s) n op = true
        · rw [if_pos hc]
          exact Or.inr ⟨_, rfl, by simpa using hip⟩
        · rw [if_neg hc]
          exact Or.inr ⟨_, rfl, by have := hb.2.2; simpa using this⟩
  rw [if_neg g6]
  by_cases g7 : L = TOK_END
  · rw [if_pos g7]
    rcases hWO : findWhileOwner idx s.ip with - | w
    · exact Or.inr ⟨_, rfl, by simpa using hip⟩
    · obtain ⟨m, hmem, -⟩ := findWhileOwner_mem hWO
      have hb := hB.2 _ hmem
      refine Or.inr ⟨_, rfl, ?_⟩
      have h1 := hb.2.1
      have h2 := hb.2.2
      simp only []
      omega
  rw [if_neg g7]
  by_cases g8 : TOK_SET.isPrefixOf L = true
  · rw [if_pos g8]
    by_cases hr : pyStrip (L.drop TOK_SET.length) = []
    · rw [if_pos hr]
      exact Or.inr ⟨_, rfl, by simpa using hip⟩
    · rw [if_neg hr]
      rcases parse_number_or_none (pyStrip (L.drop TOK_SET.length)) with - | v
      · exact Or.inl ⟨MErr.syntaxErr, rfl⟩
      · exact Or.inr ⟨_, rfl, by simpa using hip⟩
  rw [if_neg g8]
  by_cases g9 : L = TOK_RESET
  · rw [if_pos g9]
    exact Or.inr ⟨_, rfl, by simpa using hip⟩
  rw [if_neg g9]
  by_cases g10 : TOK_ADD.isPrefixOf L = true
  · rw [if_pos g10]
    by_cases hr : pyStrip (L.drop TOK_ADD.length) = []
    · rw [if_pos hr]
      exact Or.inr ⟨_, rfl, by simpa using hip⟩
    · rw [if_neg hr]
      rcases parse_number_or_none (pyStrip (L.drop TOK_ADD.length)) with - | v
      · exact Or.inl ⟨MErr.syntaxErr, rfl⟩
      · exact Or.inr ⟨_, rfl, by simpa using hip⟩
  rw [if_neg g10]
  by_cases g11 : TOK_SUB.isPrefixOf L = true
  · rw [if_pos g11]
    by_cases hr : pyStrip (L.drop TOK_SUB.length) = []
    · rw [if_pos hr]
      exact Or.inr ⟨_, rfl, by simpa using hip⟩
    · rw [if_neg hr]
      rcases parse_number_or_none (pyStrip (L.drop TOK_SUB.length)) with - | v
      · exact Or.inl ⟨MErr.syntaxErr, rfl⟩
      · exact Or.inr ⟨_, rfl, by simpa using hip⟩
  rw [if_neg g11]
  by_cases g12 : TOK_MUL.isPrefixOf L = true
  · rw [if_pos g12]
    by_cases hr : pyStrip (L.drop TOK_MUL.length) = []
    · rw [if_pos hr]
      exact Or.inl ⟨MErr.syntaxErr, rfl⟩
    · rw [if_neg hr]
      rcases regLookup (pyStrip (L.drop TOK_MUL.length)) with - | i
      · rcases parse_number_or_none (pyStrip (L.drop TOK_MUL.length)) with - | v
        · exact Or.inl ⟨MErr.syntaxErr, rfl⟩
        · exact Or.inr ⟨_, rfl, by simpa using hip⟩
      · exact Or.inr ⟨_, rfl, by simpa using hip⟩
  rw [if_neg g12]
  exact Or.inl ⟨MErr.syntaxErr, rfl⟩

/-- C5: on a successfully indexed program, stepping from a state with
`ip ≤ program length` keeps `ip` within `[0, program length]` (every jump
target — else index + 1, end index + 1, while start index, the index
past an output-block terminator — stays in range), and the run loop
halts exactly when `ip` equals the program length. -/
theorem engine_ip_in_range (lines : List Str) (idx : ProgramIndex) (s : MState)
    (hidx : index_blocks lines = Except.ok idx) (hip : s.ip ≤ lines.length) :
    (∀ s', step lines idx s = StepOut.next s' → s'.ip ≤ lines.length) ∧
    ((∃ out, step lines idx s = StepOut.halt out) ↔ s.ip = lines.length) := by
  have hB := index_blocks_bounds hidx
  unfold step
  by_cases hlt : s.ip < lines.length
  · rw [if_pos hlt]
    rcases stepLine_next_or_fail lines idx s (clean_line (lines.getD s.ip [])) hB hlt with
      ⟨e, he⟩ | ⟨s1, hs1, hb1⟩
    · rw [he]
      constructor
      · intro s' h
        cases h
      · constructor
        · rintro ⟨o, ho⟩
          cases ho
        · intro h
          omega
    · rw [hs1]
      constructor
      · intro s' h
        cases h
        exact hb1
      · constructor
        · intro ⟨o, h⟩
          cases h
        · intro h
          omega
  · rw [if_neg hlt]
    have heq : s.ip = lines.length := by omega
    constructor
    · intro s' h
      cases h
    · constructor
      · intro h
        exact heq
      · intro h
        exact ⟨s.output_chunks, rfl⟩

theorem engine_ip_in_range_witness :
    ∃ out, step ([] : List Str) ⟨[], []⟩ initState = StepOut.halt out :=
  (engine_ip_in_range [] ⟨[], []⟩ initState rfl (by decide)).2.2 rfl

/-! ## Dispatch-order facts: a statement line's first character decides
which guards of the run-loop dispatch can fire -/

theorem ne_of_head_ne {L M : Str} {c : Char} (hL : L.head? = some c)
    (hM : M.head? ≠ some c) : L ≠ M := fun h => hM (h ▸ hL)

theorem isPrefixOf_false_of_head {p L : Str} {a c : Char} (hp : p.head? = some a)
    (hL : L.head? = some c) (hne : a ≠ c) : p.isPrefixOf L = false := by
  cases p with
  | nil => cases hp
  | cons a' p' =>
    cases L with
    | nil => cases hL
    | cons c' L' =>
      have ha : a' = a := by simpa using hp
      have hc : c' = c := by simpa using hL
      subst ha hc
      simp [List.isPrefixOf, hne]

theorem is_register_token_false_of_head {L : Str} {c : Char} (hL : L.head? = some c)
    (hws : c.isWhitespace = false)
    (hall : REG_TOKENS.all (fun tok => tok.head? ≠ some c) = true) :
    is_register_token L = false := by
  unfold is_register_token
  rcases pyStrip_head hL hws with h | h
  · rw [h]
    decide
  · have := regLookup_none_of_head h hall
    simp [this]

/-! ## C6: while lines and bare end lines -/

/-- C6: a while-prefixed line evaluates its condition against the
current register: true steps to ip + 1, false jumps to the recorded end
index + 1.  A bare end line recorded as some while block's end jumps
back to that while's start index (so the condition is re-evaluated);
a bare end not recorded for any while (it closes an if) steps to
ip + 1. -/
theorem while_and_end_step (lines : List Str) (idx : ProgramIndex) (s : MState)
    (hip : s.ip < lines.length) :
    (∀ n op meta, TOK_WHILE.isPrefixOf (clean_line (lines.getD s.ip [])) = true →
      parse_condition (clean_line (lines.getD s.ip [])) = Except.ok (n, op) →
      lookupWhile idx s.ip = some meta →
      step lines idx s = StepOut.next { s with ip :=
        (if eval_condition (cur_value s) n op = true then s.ip + 1 else meta.end_ip + 1) }) ∧
    (clean_line (lines.getD s.ip []) = TOK_END →
      step lines idx s = StepOut.next { s with ip :=
        (match findWhileOwner idx s.ip with
        | some wstart => wstart
        | none => s.ip + 1) }) := by
  constructor
  · intro n op meta hw hpc hmw
    unfold step
    rw [if_pos hip]
    obtain ⟨t, ht⟩ := List.isPrefixOf_iff_prefix.1 hw
    rw [← ht] at hpc ⊢
    have hhead : (TOK_WHILE ++ t).head? = some '좋' := rfl
    have g1 : ¬TOK_WHILE ++ t = [] := by
      intro h; rw [h] at hhead; cases hhead
    have g2 : ¬is_register_token (TOK_WHILE ++ t) = true := by
      simp [is_register_token_false_of_head hhead (by decide) (by decide)]
    have g3 : TOK_WHILE ++ t ≠ TOK_PRINT_START := ne_of_head_ne hhead (by decide)
    have g4 : ¬TOK_IF.isPrefixOf (TOK_WHILE ++ t) = true := by
      simp [isPrefixOf_false_of_head (rfl : TOK_IF.head? = some '건') hhead (by decide)]
    have g5 : TOK_WHILE ++ t ≠ TOK_ELSE := ne_of_head_ne hhead (by decide)
    have g6 : TOK_WHILE.isPrefixOf (TOK_WHILE ++ t) = true := by
      simp
    unfold stepLine
    rw [if_neg g1, if_neg g2, if_neg g3, if_neg g4, if_neg g5, if_pos g6, hpc]
    simp only []
    rw [hmw]
    simp only []
    by_cases hc : eval_condition (cur_value s) n op = true
    · rw [if_pos hc, if_pos hc]
    · rw [if_neg hc, if_neg hc]
  · intro he
    unfold step
    rw [if_pos hip, he]
    rcases hWO : findWhileOwner idx s.ip with - | w
    · unfold stepLine
      rw [hWO]
      rfl
    · unfold stepLine
      rw [hWO]
      rfl

theorem while_and_end_step_witness :
    step ["좋다좋다 0 응나멘똔".toList, "쉐끼마".toList] ⟨[], [(0, ⟨0, 1⟩)]⟩
      (MState.mk (List.replicate REG_TOKENS.length 0) 0 [] 0)
      = StepOut.next (MState.mk (List.replicate REG_TOKENS.length 0) 0 [] 2) := by
  have h := (while_and_end_step ["좋다좋다 0 응나멘똔".toList, "쉐끼마".toList]
    ⟨[], [(0, ⟨0, 1⟩)]⟩ (MState.mk (List.replicate REG_TOKENS.length 0) 0 [] 0)
    (by decide)).1 0 Cmp.cgt ⟨0, 1⟩ (by decide) (by rfl) (by rfl)
  simpa using h

/-! ## C2: the mul statement (intended semantics of the dedented block) -/

/-- C2, proved of the intended logic of the `mul` suite
(mentonlang.py:511-529; the suite is dedented out of its enclosing
blocks in the source file, so the Python module itself fails to load —
see the note on `stepLine`): a missing operand is a syntax error; an
operand that is neither a register token nor a decodable numeral is a
syntax error; a register-token operand multiplies the current register
in place by that register's value, so an operand register holding 0
zeroes the current register regardless of its prior value. -/
theorem mul_line_step (lines : List Str) (idx : ProgramIndex) (s : MState)
    (hip : s.ip < lines.length)
    (hm : TOK_MUL.isPrefixOf (clean_line (lines.getD s.ip [])) = true) :
    (pyStrip ((clean_line (lines.getD s.ip [])).drop TOK_MUL.length) = [] →
      step lines idx s = StepOut.fail MErr.syntaxErr) ∧
    (regLookup (pyStrip ((clean_line (lines.getD s.ip [])).drop TOK_MUL.length)) = none →
      parse_number_or_none (pyStrip ((clean_line (lines.getD s.ip [])).drop TOK_MUL.length)) = none →
      step lines idx s = StepOut.fail MErr.syntaxErr) ∧
    (∀ i, regLookup (pyStrip ((clean_line (lines.getD s.ip [])).drop TOK_MUL.length)) = some i →
      step lines idx s =
        StepOut.next { set_cur_value s (cur_value s * s.regs.getD i 0) with ip := s.ip + 1 }) ∧
    (∀ i, regLookup (pyStrip ((clean_line (lines.getD s.ip [])).drop TOK_MUL.length)) = some i →
      s.regs.getD i 0 = 0 →
      step lines idx s = StepOut.next { set_cur_value s 0 with ip := s.ip + 1 }) := by
  have hstep : step lines idx s = stepLine lines idx s (clean_line (lines.getD s.ip [])) := by
    unfold step
    rw [if_pos hip]
  obtain ⟨t, ht⟩ := List.isPrefixOf_iff_prefix.1 hm
  have hhead : (TOK_MUL ++ t).head? = some '아' := rfl
  have g1 : ¬TOK_MUL ++ t = [] := by
    intro h; rw [h] at hhead; cases hhead
  have g2 : ¬is_register_token (TOK_MUL ++ t) = true := by
    simp [is_register_token_false_of_head hhead (by decide) (by decide)]
  have g3 : TOK_MUL ++ t ≠ TOK_PRINT_START := ne_of_head_ne hhead (by decide)
  have g4 : ¬TOK_IF.isPrefixOf (TOK_MUL ++ t) = true := by
    simp [isPrefixOf_false_of_head (rfl : TOK_IF.head? = some '건') hhead (by decide)]
  have g5 : TOK_MUL ++ t ≠ TOK_ELSE := ne_of_head_ne hhead (by decide)
  have g6 : ¬TOK_WHILE.isPrefixOf (TOK_MUL ++ t) = true := by
    simp [isPrefixOf_false_of_head (rfl : TOK_WHILE.head? = some '좋') hhead (by decide)]
  have g7 : TOK_MUL ++ t ≠ TOK_END := ne_of_head_ne hhead (by decide)
  have g8 : ¬TOK_SET.isPrefixOf (TOK_MUL ++ t) = true := by
    simp [isPrefixOf_false_of_head (rfl : TOK_SET.head? = some '하') hhead (by decide)]
  have g9 : TOK_MUL ++ t ≠ TOK_RESET := ne_of_head_ne hhead (by decide)
  have g10 : ¬TOK_ADD.isPrefixOf (TOK_MUL ++ t) = true := by
    simp [isPrefixOf_false_of_head (rfl : TOK_ADD.head? = some '누') hhead (by decide)]
  have g11 : ¬TOK_SUB.isPrefixOf (TOK_MUL ++ t) = true := by
    simp [isPrefixOf_false_of_head (rfl : TOK_SUB.head? = some '매') hhead (by decide)]
  have g12 : TOK_MUL.isPrefixOf (TOK_MUL ++ t) = true := by
    simp
  have hbr : step lines idx s =
      (if pyStrip ((TOK_MUL ++ t).drop TOK_MUL.length) = [] then
        StepOut.fail MErr.syntaxErr
      else
        match regLookup (pyStrip ((TOK_MUL ++ t).drop TOK_MUL.length)) with
        | some i =>
          StepOut.next { set_cur_value s (cur_value s * s.regs.getD i 0) with ip := s.ip + 1 }
        | none =>
          match parse_number_or_none (pyStrip ((TOK_MUL ++ t).drop TOK_MUL.length)) with
          | none => StepOut.fail MErr.syntaxErr
          | some v =>
            StepOut.next { set_cur_value s (cur_value s * v) with ip := s.ip + 1 }) := by
    rw [hstep, ← ht]
    unfold stepLine
    rw [if_neg g1, if_neg g2, if_neg g3, if_neg g4, if_neg g5, if_neg g6, if_neg g7,
      if_neg g8, if_neg g9, if_neg g10, if_neg g11, if_pos g12]
  rw [← ht]
  refine ⟨?_, ?_, ?_, ?_⟩
  · intro hrest
    rw [hbr, if_pos hrest]
  · intro hreg hnum
    by_cases hrest : pyStrip ((TOK_MUL ++ t).drop TOK_MUL.length) = []
    · rw [hbr, if_pos hrest]
    · rw [hbr, if_neg hrest, hreg, hnum]
  · intro i hreg
    have hrest : ¬pyStrip ((TOK_MUL ++ t).drop TOK_MUL.length) = [] := by
      intro h
      rw [h] at hreg
      have : regLookup ([] : Str) = none := by decide
      rw [this] at hreg
      cases hreg
    rw [hbr, if_neg hrest, hreg]
  · intro i hreg hzero
    have hrest : ¬pyStrip ((TOK_MUL ++ t).drop TOK_MUL.length) = [] := by
      intro h
      rw [h] at hreg
      have : regLookup ([] : Str) = none := by decide
      rw [this] at hreg
      cases hreg
    rw [hbr, if_neg hrest, hreg]
    simp only [hzero, Int.mul_zero]

theorem mul_line_step_witness :
    step ["아주 좋고 배털".toList] ⟨[], []⟩
      (MState.mk (List.replicate REG_TOKENS.length 7) 0 [] 0)
      = StepOut.next { set_cur_value
          (MState.mk (List.replicate REG_TOKENS.length 7) 0 [] 0)
          (cur_value (MState.mk (List.replicate REG_TOKENS.length 7) 0 [] 0) *
            (List.replicate REG_TOKENS.length (7 : Int)).getD 1 0) with ip := 1 } :=
  (mul_line_step ["아주 좋고 배털".toList] ⟨[], []⟩
    (MState.mk (List.replicate REG_TOKENS.length 7) 0 [] 0)
    (by decide) (by decide)).2.2.1 1 (by decide)

/-! ## C7: character-mode output blocks -/

theorem charItemRender_length {item c} (h : charItemRender item = some c) :
    c.length = 1 := by
  unfold charItemRender at h
  by_cases h1 : item = TOK_OUT_SPACE
  · rw [if_pos h1] at h
    cases h
    rfl
  rw [if_neg h1] at h
  by_cases h2 : item = TOK_OUT_NEWLINE
  · rw [if_pos h2] at h
    cases h
    rfl
  rw [if_neg h2] at h
  rcases hp : parse_number_or_none item with - | v <;> rw [hp] at h
  · cases h
  · cases h
    rfl

theorem renderChar_ok_forall2 :
    ∀ {items chunks : List Str}, renderChar items = Except.ok chunks →
      List.Forall₂ (fun item c => charItemRender item = some c) items chunks := by
  intro items
  induction items with
  | nil =>
    intro chunks h
    cases h
    exact List.Forall₂.nil
  | cons a rest ih =>
    intro chunks h
    unfold renderChar at h
    by_cases h1 : a = TOK_OUT_SPACE
    · rw [if_pos h1] at h
      rcases hr : renderChar rest with e | cs <;> rw [hr] at h <;> simp [Except.map] at h
      cases h
      exact List.Forall₂.cons (by rw [h1]; rfl) (ih hr)
    rw [if_neg h1] at h
    by_cases h2 : a = TOK_OUT_NEWLINE
    · rw [if_pos h2] at h
      rcases hr : renderChar rest with e | cs <;> rw [hr] at h <;> simp [Except.map] at h
      cases h
      exact List.Forall₂.cons (by rw [h2]; rfl) (ih hr)
    rw [if_neg h2] at h
    rcases hp : parse_number_or_none a with - | v <;> rw [hp] at h
    · cases h
    · rcases hr : renderChar rest with e | cs <;> rw [hr] at h <;> simp [Except.map] at h
      cases h
      refine List.Forall₂.cons ?_ (ih hr)
      unfold charItemRender
      rw [if_neg h1, if_neg h2, hp]
      rfl

theorem renderChar_error_of_none :
    ∀ {items : List Str} {item : Str}, item ∈ items → charItemRender item = none →
      renderChar items = Except.error MErr.syntaxErr := by
  intro items
  induction items with
  | nil =>
    intro item hmem
    cases hmem
  | cons a rest ih =>
    intro item hmem hnone
    rcases List.mem_cons.1 hmem with rfl | hmem'
    · unfold charItemRender at hnone
      by_cases h1 : item = TOK_OUT_SPACE
      · rw [if_pos h1] at hnone
        cases hnone
      rw [if_neg h1] at hnone
      by_cases h2 : item = TOK_OUT_NEWLINE
      · rw [if_pos h2] at hnone
        cases hnone
      rw [if_neg h2] at hnone
      rcases hp : parse_number_or_none item with - | v <;> rw [hp] at hnone
      · unfold renderChar
        rw [if_neg h1, if_neg h2, hp]
      · cases hnone
    · have hrest := ih hmem' hnone
      unfold renderChar
      by_cases h1 : a = TOK_OUT_SPACE
      · rw [if_pos h1, hrest]
        rfl
      rw [if_neg h1]
      by_cases h2 : a = TOK_OUT_NEWLINE
      · rw [if_pos h2, hrest]
        rfl
      rw [if_neg h2]
      rcases hp : parse_number_or_none a with - | v
      · rfl
      · rw [hrest]
        rfl

/-- C7: in a character-mode output block, a register-token item makes
the block a syntax error (register tokens never decode as numerals and
are not the shortcut tokens); when rendering succeeds, every item maps
to exactly one character — shortcuts, or the decoded numeral's value
modulo 256 — and control returns at the index just past the terminator
line. -/
theorem char_mode_output (lines : List Str) (regs : List Int) (start j : Nat)
    (content : List Str)
    (hscan : scanOutput (lines.drop (start + 1)) = some (content, TOK_PRINT_CHAR_END, j)) :
    ((∃ item ∈ content, (regLookup item).isSome = true) →
      exec_output_block lines regs start = Except.error MErr.syntaxErr) ∧
    (∀ chunks, renderChar content = Except.ok chunks →
      exec_output_block lines regs start = Except.ok (chunks, start + 1 + j + 1) ∧
      List.Forall₂ (fun item c => charItemRender item = some c ∧ c.length = 1)
        content chunks) := by
  have hexec : exec_output_block lines regs start =
      (renderChar content).map (fun cs => (cs, start + 1 + j + 1)) := by
    unfold exec_output_block
    rw [hscan]
    simp only []
    rw [if_neg (by decide : ¬TOK_PRINT_CHAR_END = TOK_PRINT_NUM_END)]
  constructor
  · rintro ⟨item, hmem, hreg⟩
    obtain ⟨i, hi⟩ := Option.isSome_iff_exists.1 hreg
    have htok := regLookup_mem hi
    have hfacts := List.all_eq_true.1 reg_token_not_numeral item htok
    have hnp : parse_number_or_none item = none := (of_decide_eq_true hfacts).1
    have hs1 : item ≠ TOK_OUT_SPACE := (of_decide_eq_true hfacts).2.1
    have hs2 : item ≠ TOK_OUT_NEWLINE := (of_decide_eq_true hfacts).2.2
    have hnone : charItemRender item = none := by
      unfold charItemRender
      rw [if_neg hs1, if_neg hs2, hnp]
      rfl
    rw [hexec, renderChar_error_of_none hmem hnone]
    rfl
  · intro chunks h
    refine ⟨by rw [hexec, h]; rfl, ?_⟩
    have h2 := renderChar_ok_forall2 h
    exact h2.imp (fun {a b} hab => ⟨hab, charItemRender_length hab⟩)

/-! ## C1: the laugh-number decoder

The plan: relate the source's skip loop to the arithmetic
`specPlaceStep` (by induction on the skip distance), lift that to the
whole item run, characterize the bounded anchor search as a least
element, and bound the least consistent anchor so the source's
`max_steps` cutoff never cuts a consistent assignment off. -/

theorem token_for_power_eq_iff {p : Char} (hp : p ∈ placeTokens) (k : Int) :
    token_for_power k = p ↔ k % 4 = (targetMod p : Int) := by
  have h4 : k % 4 = 0 ∨ k % 4 = 1 ∨ k % 4 = 2 ∨ k % 4 = 3 := by omega
  have hp' : p = T_I ∨ p = T_X ∨ p = T_C ∨ p = T_M := by
    simpa [placeTokens] using hp
  unfold token_for_power targetMod
  rcases hp' with rfl | rfl | rfl | rfl <;>
    rcases h4 with h | h | h | h <;>
    simp [h] <;> decide

theorem skipToF_fuel :
    ∀ (f : Nat) (k : Int) (s : Nat) (p : Char), s ≤ 3 → 4 ≤ f + s →
      skipToF f k s p = skipToF (f + 1) k s p := by
  intro f
  induction f with
  | zero =>
    intro k s p hs hf
    omega
  | succ f ih =>
    intro k s p hs hf
    simp only [skipToF]
    by_cases h1 : 0 ≤ k ∧ token_for_power k ≠ p
    · rw [if_pos h1, if_pos h1]
      by_cases h2 : s + 1 ≥ 4
      · rw [if_pos h2, if_pos h2]
      · rw [if_neg h2, if_neg h2]
        exact ih (k - 1) (s + 1) p (by omega) (by omega)
    · rw [if_neg h1, if_neg h1]

theorem skipTo_unfold (k : Int) (s : Nat) (p : Char) (hs : s ≤ 3) :
    skipTo k s p =
      if 0 ≤ k ∧ token_for_power k ≠ p then
        (if s + 1 ≥ 4 then none else skipTo (k - 1) (s + 1) p)
      else some (k, s) := by
  unfold skipTo
  have h4 : (4 : Nat) = 3 + 1 := rfl
  rw [h4]
  simp only [skipToF]
  by_cases h1 : 0 ≤ k ∧ token_for_power k ≠ p
  · rw [if_pos h1, if_pos h1]
    by_cases h2 : s + 1 ≥ 4
    · rw [if_pos h2, if_pos h2]
    · rw [if_neg h2, if_neg h2]
      exact skipToF_fuel 3 (k - 1) (s + 1) p (by omega) (by omega)
  · rw [if_neg h1, if_neg h1]

theorem placeStep_eq_spec {p : Char} (hp : p ∈ placeTokens) :
    ∀ (g : Nat) (k : Int) (s : Nat), s ≤ 3 →
      ((k - (targetMod p : Int)) % 4).toNat = g →
      placeStep k s p = specPlaceStep k s p := by
  have hm : (targetMod p : Int) ≤ 3 := by
    unfold targetMod
    split <;> [skip; split] <;> [skip; skip; split] <;> simp
  intro g
  induction g with
  | zero =>
    intro k s hs hg
    by_cases hk : k < 0
    · have hcond : ¬(0 ≤ k ∧ token_for_power k ≠ p) := by
        rintro ⟨h0, -⟩
        omega
      unfold placeStep
      rw [skipTo_unfold k s p hs, if_neg hcond]
      simp only []
      rw [if_pos (Or.inl hk)]
      unfold specPlaceStep
      simp only []
      rw [if_pos (by omega : k - (((k - (targetMod p : Int)) % 4).toNat : Int) < 0)]
    · have hmod : k % 4 = (targetMod p : Int) := by omega
      have htok : token_for_power k = p := (token_for_power_eq_iff hp k).2 hmod
      have hcond : ¬(0 ≤ k ∧ token_for_power k ≠ p) := by
        rintro ⟨-, hne⟩
        exact hne htok
      unfold placeStep
      rw [skipTo_unfold k s p hs, if_neg hcond]
      simp only []
      have hnand : ¬(k < 0 ∨ token_for_power k ≠ p) := by
        push_neg
        exact ⟨by omega, htok⟩
      rw [if_neg hnand]
      unfold specPlaceStep
      simp only []
      rw [hg]
      rw [if_neg (by omega : ¬(k - ((0 : Nat) : Int) < 0)),
        if_neg (by omega : ¬(1 ≤ 0 ∧ s + 0 ≥ 4))]
      simp
  | succ g ih =>
    intro k s hs hg
    by_cases hk : k < 0
    · have hcond : ¬(0 ≤ k ∧ token_for_power k ≠ p) := by
        rintro ⟨h0, -⟩
        omega
      unfold placeStep
      rw [skipTo_unfold k s p hs, if_neg hcond]
      simp only []
      rw [if_pos (Or.inl hk)]
      unfold specPlaceStep
      simp only []
      rw [if_pos (by omega : k - (((k - (targetMod p : Int)) % 4).toNat : Int) < 0)]
    · have hmod : ¬k % 4 = (targetMod p : Int) := by omega
      have htok : ¬token_for_power k = p := fun h => hmod ((token_for_power_eq_iff hp k).1 h)
      have hcond : 0 ≤ k ∧ token_for_power k ≠ p := ⟨by omega, htok⟩
      by_cases hcnt : s + 1 ≥ 4
      · -- the counter fires on the first skip
        have hps : placeStep k s p = none := by
          unfold placeStep
          rw [skipTo_unfold k s p hs, if_pos hcond, if_pos hcnt]
        rw [hps]
        unfold specPlaceStep
        simp only []
        by_cases hneg : k - (((k - (targetMod p : Int)) % 4).toNat : Int) < 0
        · rw [if_pos hneg]
        · rw [if_neg hneg, if_pos (by constructor <;> omega)]
      · have hstep1 : placeStep k s p = placeStep (k - 1) (s + 1) p := by
          unfold placeStep
          rw [skipTo_unfold k s p hs, if_pos hcond, if_neg hcnt]
        have hg' : ((k - 1 - (targetMod p : Int)) % 4).toNat = g := by omega
        rw [hstep1, ih (k - 1) (s + 1) (by omega) hg']
        unfold specPlaceStep
        simp only []
        rw [hg', hg]
        have hk' : k - 1 - (g : Int) = k - ((g + 1 : Nat) : Int) := by push_cast; ring
        rw [hk']
        by_cases hneg : k - ((g + 1 : Nat) : Int) < 0
        · rw [if_pos hneg, if_pos hneg]
        · rw [if_neg hneg, if_neg hneg]
          by_cases hguard : 1 ≤ g ∧ s + 1 + g ≥ 4
          · rw [if_pos hguard, if_pos (by omega : 1 ≤ g + 1 ∧ s + (g + 1) ≥ 4)]
          · rw [if_neg hguard,
              if_neg (by omega : ¬(1 ≤ g + 1 ∧ s + (g + 1) ≥ 4))]
            have : s + 1 + g + 1 = s + (g + 1) + 1 := by omega
            rw [this]

theorem try_parse_go_cons_pl (p : Char) (d : Nat) (rest : List LItem) (k : Int)
    (s a : Nat) :
    try_parse_go (LItem.pl p d :: rest) k s a =
      match placeStep k s p with
      | none => none
      | some (k', s'') => try_parse_go rest (k' - 1) s'' (a + d * 10 ^ k'.toNat) := by
  rcases hsk : skipTo k s p with - | ⟨k', s'⟩
  · simp only [try_parse_go, placeStep, hsk]
  · simp only [try_parse_go, placeStep, hsk]
    by_cases h : k' < 0 ∨ token_for_power k' ≠ p
    · rw [if_pos h, if_pos h]
    · rw [if_neg h, if_neg h]

theorem specPlaceStep_snd_le {k : Int} {s : Nat} {p : Char} {k' : Int} {s' : Nat}
    (h : specPlaceStep k s p = some (k', s')) : s' ≤ 3 := by
  unfold specPlaceStep at h
  simp only [] at h
  split at h
  · cases h
  · split at h
    · cases h
    · cases h
      split
      · omega
      · omega

theorem try_parse_go_eq_spec :
    ∀ (items : List LItem) (k : Int) (s a : Nat),
      (∀ p d, LItem.pl p d ∈ items → p ∈ placeTokens) → s ≤ 3 →
      try_parse_go items k s a = (laughSpecRun items k s).map (a + ·) := by
  intro items
  induction items with
  | nil =>
    intro k s a hpl hs
    rfl
  | cons it rest ih =>
    intro k s a hpl hs
    cases it with
    | zz =>
      show try_parse_go (LItem.zz :: rest) k s a = _
      unfold try_parse_go laughSpecRun
      by_cases hneg : k - 4 < 0
      · rw [if_pos hneg, if_pos hneg]
        rfl
      · rw [if_neg hneg, if_neg hneg]
        exact ih (k - 4) 0 a (fun p d hm => hpl p d (List.mem_cons_of_mem _ hm)) (by omega)
    | pl p d =>
      have hp : p ∈ placeTokens := hpl p d (List.mem_cons_self _ _)
      rw [try_parse_go_cons_pl,
        placeStep_eq_spec hp (((k - (targetMod p : Int)) % 4).toNat) k s hs rfl]
      show _ = (laughSpecRun (LItem.pl p d :: rest) k s).map (a + ·)
      unfold laughSpecRun
      rcases hsp : specPlaceStep k s p with - | ⟨k', s'⟩
      · rfl
      · simp only []
        rw [ih (k' - 1) s' (a + d * 10 ^ k'.toNat)
          (fun p' d' hm => hpl p' d' (List.mem_cons_of_mem _ hm))
          (specPlaceStep_snd_le hsp)]
        rcases laughSpecRun rest (k' - 1) s' with - | w
        · rfl
        · simp [Nat.add_assoc]

theorem try_parse_eq_spec {items : List LItem} (k : Int)
    (hpl : ∀ p d, LItem.pl p d ∈ items → p ∈ placeTokens) :
    try_parse items k = laughSpecRun items k 0 := by
  unfold try_parse
  rw [try_parse_go_eq_spec items k 0 0 hpl (by omega)]
  rcases laughSpecRun items k 0 with - | w <;> simp

theorem laughTokenizeF_places :
    ∀ (f : Nat) (cs : Str) (items : List LItem), laughTokenizeF f cs = some items →
      ∀ p d, LItem.pl p d ∈ items → p ∈ placeTokens := by
  intro f
  induction f with
  | zero =>
    intro cs items h
    cases h
  | succ f ih =>
    intro cs items h p d hmem
    cases cs with
    | nil =>
      cases h
      cases hmem
    | cons c cs' =>
      unfold laughTokenizeF at h
      by_cases h1 : c = T_GROUP_ZERO
      · rw [if_pos h1] at h
        rcases hr : laughTokenizeF f cs' with - | items' <;> rw [hr] at h
        · cases h
        · cases h
          rcases List.mem_cons.1 hmem with hz | hmem'
          · cases hz
          · exact ih cs' items' hr p d hmem'
      · rw [if_neg h1] at h
        simp only [] at h
        by_cases hfive : T_FIVE.isPrefixOf (c :: cs') = true
        · rw [if_pos hfive] at h
          rcases hdrop : (c :: cs').drop 2 with - | ⟨q, qs⟩ <;> rw [hdrop] at h
          · cases h
          · simp only [] at h
            by_cases hq : q ∈ placeTokens
            · rw [if_pos hq] at h
              rw [if_pos hfive] at h
              by_cases hcnt : 1 ≤ ((q :: qs).takeWhile (· = q)).length ∧
                  ((q :: qs).takeWhile (· = q)).length ≤ 4
              · rw [if_pos hcnt] at h
                rcases hr : laughTokenizeF f ((q :: qs).dropWhile (· = q)) with - | items'
                  <;> rw [hr] at h
                · cases h
                · cases h
                  rcases List.mem_cons.1 hmem with hz | hmem'
                  · cases hz
                    exact hq
                  · exact ih _ items' hr p d hmem'
              · rw [if_neg hcnt] at h
                cases h
            · rw [if_neg hq] at h
              cases h
        · rw [if_neg hfive] at h
          simp only [] at h
          by_cases hq : c ∈ placeTokens
          · rw [if_pos hq] at h
            rw [if_neg hfive] at h
            by_cases hcnt : 1 ≤ ((c :: cs').takeWhile (· = c)).length ∧
                ((c :: cs').takeWhile (· = c)).length ≤ 5
            · rw [if_pos hcnt] at h
              rcases hr : laughTokenizeF f ((c :: cs').dropWhile (· = c)) with - | items'
                <;> rw [hr] at h
              · cases h
              · cases h
                rcases List.mem_cons.1 hmem with hz | hmem'
                · cases hz
                  exact hq
                · exact ih _ items' hr p d hmem'
            · rw [if_neg hcnt] at h
              cases h
          · rw [if_neg hq] at h
            cases h

theorem laughTokenize_places {cs : Str} {items : List LItem}
    (h : laughTokenize cs = some items) :
    ∀ p d, LItem.pl p d ∈ items → p ∈ placeTokens :=
  laughTokenizeF_places (cs.length + 1) cs items h

/-- Shifting a consistent run four powers down stays consistent as long
as it stays clear of the bottom; this bounds the least consistent
anchor. -/
theorem laughSpecRun_shift :
    ∀ (items : List LItem) (k : Int) (s : Nat),
      4 * items.length + 4 ≤ k →
      (laughSpecRun items k s).isSome = true →
      (laughSpecRun items (k - 4) s).isSome = true := by
  intro items
  induction items with
  | nil =>
    intro k s hk h
    rfl
  | cons it rest ih =>
    intro it_k s hk h
    cases it with
    | zz =>
      have hk' : 4 * rest.length + 8 ≤ it_k := by
        simp only [List.length_cons] at hk
        omega
      unfold laughSpecRun at h ⊢
      rw [if_neg (by omega : ¬it_k - 4 < 0)] at h
      rw [if_neg (by omega : ¬it_k - 4 - 4 < 0)]
      exact ih (it_k - 4) 0 (by omega) h
    | pl p d =>
      have hk' : 4 * rest.length + 8 ≤ it_k := by
        simp only [List.length_cons] at hk
        omega
      unfold laughSpecRun at h ⊢
      unfold specPlaceStep at h ⊢
      simp only [] at h ⊢
      set g := ((it_k - (targetMod p : Int)) % 4).toNat with hgdef
      have hg4 : ((it_k - 4 - (targetMod p : Int)) % 4).toNat = g := by
        rw [hgdef]
        omega
      rw [hg4]
      have hgle : g ≤ 3 := by
        rw [hgdef]
        omega
      have hkg : ¬(it_k - (g : Int) < 0) := by omega
      rw [if_neg hkg] at h
      rw [if_neg (by omega : ¬(it_k - 4 - (g : Int) < 0))]
      by_cases hguard : 1 ≤ g ∧ s + g ≥ 4
      · rw [if_pos hguard] at h
        cases h
      · rw [if_neg hguard] at h
        rw [if_neg hguard]
        simp only [] at h ⊢
        have harr : it_k - 4 - (g : Int) - 1 = it_k - (g : Int) - 1 - 4 := by ring
        rw [harr]
        rcases hrec : laughSpecRun rest (it_k - (g : Int) - 1)
            (if s + g + 1 ≥ 4 then 0 else s + g + 1) with - | w
        · rw [hrec] at h
          cases h
        · have hrec' := ih (it_k - (g : Int) - 1) (if s + g + 1 ≥ 4 then 0 else s + g + 1)
            (by omega) (by rw [hrec]; rfl)
          rcases hx : laughSpecRun rest (it_k - (g : Int) - 1 - 4)
              (if s + g + 1 ≥ 4 then 0 else s + g + 1) with - | w'
          · rw [hx] at hrec'
            simp at hrec'
          · rfl

/-- The bounded anchor search returns exactly the first hit. -/
theorem laughSearch_eq_some_iff (items : List LItem) (t : Nat) :
    ∀ (n m : Nat) (v : Nat),
      laughSearch items t n m = some v ↔
      ∃ j, j < n ∧ try_parse items (((t + 4 * (m + j) : Nat) : Int)) = some v ∧
        ∀ i, i < j → try_parse items (((t + 4 * (m + i) : Nat) : Int)) = none := by
  intro n
  induction n with
  | zero =>
    intro m v
    constructor
    · intro h
      cases h
    · rintro ⟨j, hj, -, -⟩
      omega
  | succ n ih =>
    intro m v
    have hcast : ((t : Int) + 4 * (m : Int)) = (((t + 4 * (m + 0) : Nat) : Int)) := by
      push_cast
      ring
    unfold laughSearch
    rw [hcast]
    rcases hp : try_parse items (((t + 4 * (m + 0) : Nat) : Int)) with - | w
    · simp only []
      rw [ih (m + 1) v]
      constructor
      · rintro ⟨j, hj, hsome, hnone⟩
        refine ⟨j + 1, by omega, ?_, ?_⟩
        · have harith : t + 4 * (m + 1 + j) = t + 4 * (m + (j + 1)) := by omega
          rw [← harith]
          exact hsome
        · intro i hi
          cases i with
          | zero => exact hp
          | succ i' =>
            have harith : t + 4 * (m + 1 + i') = t + 4 * (m + (i' + 1)) := by omega
            rw [← harith]
            exact hnone i' (by omega)
      · rintro ⟨j, hj, hsome, hnone⟩
        cases j with
        | zero =>
          rw [hp] at hsome
          cases hsome
        | succ j' =>
          refine ⟨j', by omega, ?_, ?_⟩
          · have harith : t + 4 * (m + 1 + j') = t + 4 * (m + (j' + 1)) := by omega
            rw [harith]
            exact hsome
          · intro i hi
            have harith : t + 4 * (m + 1 + i) = t + 4 * (m + (i + 1)) := by omega
            rw [harith]
            exact hnone (i + 1) (by omega)
    · simp only []
      constructor
      · intro h
        cases h
        exact ⟨0, by omega, hp, by omega⟩
      · rintro ⟨j, hj, hsome, hnone⟩
        cases j with
        | zero =>
          rw [hp] at hsome
          cases hsome
          rfl
        | succ j' =>
          have := hnone 0 (by omega)
          rw [hp] at this
          cases this

/-- C1 (amended): `parse_laugh_number` returns a value exactly when the
stripped, sign-peeled input tokenizes under the digit rules (so it
fails on an empty stream, a dangling five-bump marker, or an
out-of-range repetition count), the stream has an explicit place
anchoring the power residue, and some starting power
`targetMod fp + 4m` admits a consistent run — consistency per
`specPlaceStep`/`laughSpecRun`: places sit at the next power of their
kind, a zero-group skips exactly 4 powers from the current position,
and four consecutive counted powers (from the anchor, reset at each
zero-group and each completed group of four) may not pass without an
explicit digit.  The value is taken at the smallest such starting
power, negated under the `뭐꼬` marker. -/
theorem laugh_decoder_spec :
    ∀ (s : Str) (v : Int), parse_laugh_number s = some v ↔ LaughSpecDecodes s v := by
  intro s v
  unfold parse_laugh_number
  rcases hP : laughPrep s with - | ⟨neg, raw2⟩
  · simp only []
    constructor
    · intro h
      cases h
    · rintro ⟨neg, raw2, items, fp, m, w, hP', -⟩
      rw [hP] at hP'
      cases hP'
  · simp only []
    rcases hT : laughTokenize raw2 with - | items
    · constructor
      · intro h
        cases h
      · rintro ⟨neg', raw2', items, fp, m, w, hP', hT', -⟩
        rw [hP] at hP'
        cases hP'
        rw [hT] at hT'
        cases hT'
    · simp only []
      by_cases hnil : items = []
      · subst hnil
        rw [if_pos rfl]
        constructor
        · intro h
          cases h
        · rintro ⟨neg', raw2', items', fp, m, w, hP', hT', hF', -⟩
          rw [hP] at hP'
          cases hP'
          rw [hT] at hT'
          cases hT'
          cases hF'
      · rw [if_neg hnil]
        rcases hF : firstPlace items with - | fp
        · constructor
          · intro h
            cases h
          · rintro ⟨neg', raw2', items', fp', m, w, hP', hT', hF', -⟩
            rw [hP] at hP'
            cases hP'
            rw [hT] at hT'
            cases hT'
            rw [hF] at hF'
            cases hF'
        · simp only []
          have hpl : ∀ p d, LItem.pl p d ∈ items → p ∈ placeTokens :=
            laughTokenize_places hT
          have htp : ∀ k, try_parse items k = laughSpecRun items k 0 :=
            fun k => try_parse_eq_spec k hpl
          have hc : ∀ n : Nat, ((targetMod fp + 4 * (0 + n) : Nat) : Int) =
              (targetMod fp : Int) + 4 * (n : Int) := by
            intro n
            push_cast
            ring
          rcases hS : laughSearch items (targetMod fp) (items.length * 5 + 20) 0 with - | w0
          · constructor
            · intro h
              cases h
            · rintro ⟨neg', raw2', items', fp', m, w, hP', hT', hF', hLeast, hRun, hv⟩
              rw [hP] at hP'
              cases hP'
              rw [hT] at hT'
              cases hT'
              rw [hF] at hF'
              cases hF'
              exfalso
              have hmb : m ≤ items.length + 1 := by
                by_contra hmb
                push_neg at hmb
                have hk : 4 * (items.length : Int) + 4 ≤ (targetMod fp : Int) + 4 * m := by
                  have h0 : (0 : Int) ≤ (targetMod fp : Int) := Int.ofNat_nonneg _
                  have hm2 : (items.length : Int) + 2 ≤ (m : Int) := by
                    exact_mod_cast hmb
                  omega
                have hshift := laughSpecRun_shift items ((targetMod fp : Int) + 4 * m) 0 hk
                  (by rw [hRun]; rfl)
                have harr : (targetMod fp : Int) + 4 * (m : Int) - 4 =
                    (targetMod fp : Int) + 4 * ((m - 1 : Nat) : Int) := by
                  have : ((m - 1 : Nat) : Int) = (m : Int) - 1 := by omega
                  rw [this]
                  ring
                rw [harr] at hshift
                have hmem : (m - 1) ∈ {n : Nat |
                    (laughSpecRun items ((targetMod fp : Int) + 4 * n) 0).isSome = true} :=
                  hshift
                have := hLeast.2 hmem
                omega
              have hmlt : m < items.length * 5 + 20 := by
                have : items.length + 1 < items.length * 5 + 20 := by omega
                omega
              have hfound : laughSearch items (targetMod fp) (items.length * 5 + 20) 0
                  = some w := by
                rw [laughSearch_eq_some_iff]
                refine ⟨m, hmlt, ?_, ?_⟩
                · rw [htp, hc]
                  exact hRun
                · intro i hi
                  rw [htp, hc]
                  rcases hx : laughSpecRun items ((targetMod fp : Int) + 4 * i) 0 with - | w2
                  · rfl
                  · exfalso
                    have hiS : i ∈ {n : Nat |
                        (laughSpecRun items ((targetMod fp : Int) + 4 * n) 0).isSome = true} := by
                      show (laughSpecRun items ((targetMod fp : Int) + 4 * i) 0).isSome = true
                      rw [hx]
                      rfl
                    have := hLeast.2 hiS
                    omega
              rw [hfound] at hS
              cases hS
          · simp only []
            obtain ⟨j, hj, hsome, hnone⟩ :=
              (laughSearch_eq_some_iff items (targetMod fp) (items.length * 5 + 20) 0 w0).1 hS
            rw [htp, hc] at hsome
            constructor
            · intro h
              cases h
              have hjmem : j ∈ {n : Nat |
                  (laughSpecRun items ((targetMod fp : Int) + 4 * n) 0).isSome = true} := by
                show (laughSpecRun items ((targetMod fp : Int) + 4 * j) 0).isSome = true
                rw [hsome]
                rfl
              refine ⟨neg, raw2, items, fp, j, w0, hP, hT, hF, ⟨hjmem, ?_⟩, hsome, rfl⟩
              intro b hb
              by_contra hbj
              push_neg at hbj
              have := hnone b (by omega)
              rw [htp, hc] at this
              have hb' : (laughSpecRun items ((targetMod fp : Int) + 4 * b) 0).isSome = true := hb
              rw [this] at hb'
              cases hb'
            · rintro ⟨neg', raw2', items', fp', m, w, hP', hT', hF', hLeast, hRun, hv⟩
              rw [hP] at hP'
              cases hP'
              rw [hT] at hT'
              cases hT'
              rw [hF] at hF'
              cases hF'
              have hjS : j ∈ {n : Nat |
                  (laughSpecRun items ((targetMod fp : Int) + 4 * n) 0).isSome = true} := by
                show (laughSpecRun items ((targetMod fp : Int) + 4 * j) 0).isSome = true
                rw [hsome]
                rfl
              have hmj : m ≤ j := hLeast.2 hjS
              have hjm : ¬m < j := by
                intro hlt
                have := hnone m hlt
                rw [htp, hc] at this
                rw [this] at hRun
                cases hRun
              have hmeq : m = j := by omega
              subst hmeq
              rw [hRun] at hsome
              cases hsome
              rw [hv]

/-- Counterexample to C1 as frozen: the stream `훳훠러훳` tokenizes to
places (tens, 1) then (tens, 6); under the claim's criterion — places
strictly decreasing with at most 3 implicitly skipped powers between
explicit places — the starting power 5 is consistent (10^5 then 10^1,
skipping the 3 powers 4, 3, 2) and no smaller anchor is, so the claim
demands the value 100060; the decoder instead rejects the stream: its
running group counter (which also counts consumed powers since the last
reset) reaches 4 during the skip. -/
theorem laugh_claim_cex :
    laughTokenize "훳훠러훳".toList = some [LItem.pl T_X 1, LItem.pl T_X 6] ∧
    claimLaughConsistent [LItem.pl T_X 1, LItem.pl T_X 6] 5 = true ∧
    claimLaughConsistent [LItem.pl T_X 1, LItem.pl T_X 6] 1 = false ∧
    parse_laugh_number "훳훠러훳".toList = none :=
  ⟨rfl, by decide, by decide, rfl⟩

theorem char_mode_output_witness :
    exec_output_block ["와타시는".toList, "72".toList, "한다는 것이야".toList]
      (List.replicate REG_TOKENS.length 0) 0
      = Except.ok ([['H']], 3) ∧
    List.Forall₂ (fun item c => charItemRender item = some c ∧ c.length = 1)
      [['7', '2']] [['H']] := by
  have h := (char_mode_output ["와타시는".toList, "72".toList, "한다는 것이야".toList]
    (List.replicate REG_TOKENS.length 0) 0 1 [['7', '2']] rfl).2 [['H']] rfl
  simpa using h

end Menton
